import Mathlib

/-! HVector (scuff-em, `src/libs/libhmat/HVector.cc`).

A shallow embedding of the `HVector` class: a fixed-length vector of scalars that is
stored either as `double` (`DV`) or as `cdouble` (`ZV`), selected by the tag `RealComplex`.

Conventions of the embedding.

* `double` is an arbitrary commutative ring `D` (exact arithmetic); `cdouble` is the pair
  structure `cdouble D` with the arithmetic of `std::complex`.
* A C++ `int` is an `Int`.  A buffer is a `List`; a null pointer is `none`.
* A member function that writes to `*this` is a function returning the vector after the
  call; a member function that returns a value returns the pair (value, vector after the call).
* A call that can end in `ErrExit`, or is claimed not to, returns an `Except String`: `.ok` is
  a call that returns, `.error` a fatal exit.
* `LinSpace` and `LogSpace` also return the divisions they evaluate, as (dividend, divisor)
  pairs; `exp` and `log` of `math.h` are parameters of `LogSpace`.
* An external buffer (`void *data`) is a list of doubles; read as `cdouble *`, consecutive
  doubles pair up.
* Indexing a buffer out of its bounds, or through a null pointer, is undefined behaviour in
  C++; here such a read yields `0` and such a write does nothing.
-/

namespace HMat

/-! ## Scalars -/

/-- The type `cdouble` (`std::complex<double>`) over the scalar type `D`. -/
@[ext]
structure cdouble (D : Type) where
  re : D
  im : D
deriving DecidableEq

namespace cdouble

variable {D : Type} [CommRing D]

instance : Zero (cdouble D) := ⟨⟨0, 0⟩⟩

/-- `operator+` of `std::complex`. -/
instance : Add (cdouble D) := ⟨fun a b => ⟨a.re + b.re, a.im + b.im⟩⟩

/-- `operator*` of `std::complex`. -/
instance : Mul (cdouble D) :=
  ⟨fun a b => ⟨a.re * b.re - a.im * b.im, a.re * b.im + a.im * b.re⟩⟩

/-- The conversion `cdouble(x)`, also applied implicitly where a `double` is used as a `cdouble`. -/
def ofDouble (x : D) : cdouble D := ⟨x, 0⟩

/-- The function `real(z)`. -/
def real (z : cdouble D) : D := z.re

/-- The function `imag(z)`. -/
def imag (z : cdouble D) : D := z.im

/-- The `operator*` of `std::complex` with a `double` on the right: both parts are
multiplied by it. -/
def mulD (z : cdouble D) (x : D) : cdouble D := ⟨z.re * x, z.im * x⟩

end cdouble

/-! ## Buffers -/

section Buffers

variable {α : Type}

/-- Modelled from the spec: `mallocEC` belongs to libhrutil, which is not part of the sources.
Section 6 of the spec: given a byte count the allocator returns a zero-initialised buffer or
terminates the process.  This is the returning case, the byte count `n * sizeof(T)` being
given as the element count `n`. -/
def mallocEC (α : Type) [Zero α] (n : Nat) : List α := List.replicate n 0

/-- The read `p[n]`. -/
def load [Zero α] (p : Option (List α)) (n : Int) : α :=
  match p with
  | some b => b.getD n.toNat 0
  | none => 0

/-- The write `p[n] = x`. -/
def store (p : Option (List α)) (n : Int) (x : α) : Option (List α) :=
  p.map fun b => b.set n.toNat x

/-- The call `memcpy(dst, src, n * sizeof(T))`: the first `n` elements of `dst` become the
first `n` elements of `src`. -/
def memcpy (dst src : Option (List α)) (n : Nat) : Option (List α) :=
  match dst, src with
  | some d, some s => some (s.take n ++ d.drop n)
  | d, _ => d

/-- The call `memset(dst, 0, n * sizeof(T))`: the first `n` elements of `dst` become zero. -/
def memset0 [Zero α] (dst : Option (List α)) (n : Nat) : Option (List α) :=
  dst.map fun d => List.replicate n 0 ++ d.drop n

/-- The cast `(cdouble *)data` of a buffer of doubles: consecutive doubles are the real and
imaginary part of one element. -/
def castCdouble {D : Type} : List D → List (cdouble D)
  | a :: b :: t => ⟨a, b⟩ :: castCdouble t
  | _ => []

/-- The loop `for (n = lo; n < lo + cnt; n++) s = body n s`. -/
def forLoop {σ : Type} (body : Int → σ → σ) : Int → Nat → σ → σ
  | _, 0, s => s
  | n, k + 1, s => forLoop body (n + 1) k (body n s)

end Buffers

/-! ## The class -/

/-- Modelled from the spec: the constant `LHM_REAL` of libhmat.h (not part of the sources),
the tag of the kind REAL. -/
def LHM_REAL : Int := 0

/-- Modelled from the spec: the constant `LHM_COMPLEX` of libhmat.h (not part of the sources),
the tag of the kind COMPLEX. -/
def LHM_COMPLEX : Int := 1

/-- The data members of `HVector`. -/
structure HVector (D : Type) where
  N : Int
  RealComplex : Int
  DV : Option (List D)
  ZV : Option (List (cdouble D))
  ErrMsg : Option String
  ownsV : Bool

namespace HVector

variable {D : Type} [CommRing D]

/-- `HVector::InitHVector(pN, pRealComplex, data)`; `data` is the external buffer, `none` for
`NULL` (the default argument). -/
def InitHVector (pN : Int) (pRealComplex : Int) (data : Option (List D)) : HVector D :=
  if pRealComplex = LHM_REAL then
    { N := pN, RealComplex := pRealComplex, ErrMsg := none, ownsV := data.isNone,
      DV := some (match data with
        | some buf => buf
        | none => mallocEC D pN.toNat),
      ZV := none }
  else
    { N := pN, RealComplex := pRealComplex, ErrMsg := none, ownsV := data.isNone,
      DV := none,
      ZV := some (match data with
        | some buf => castCdouble buf
        | none => mallocEC (cdouble D) pN.toNat) }

/-- The constructor `HVector::HVector(int pN, int pRealComplex, void *data)`. -/
def mk_sized (pN : Int) (pRealComplex : Int) (data : Option (List D)) : HVector D :=
  InitHVector pN pRealComplex data

/-- The copy constructor `HVector::HVector(HVector *V)`. -/
def mk_copy (V : HVector D) : HVector D :=
  let this := InitHVector V.N V.RealComplex (none : Option (List D))
  if this.RealComplex = LHM_REAL then
    { this with DV := memcpy this.DV V.DV this.N.toNat }
  else
    { this with ZV := memcpy this.ZV V.ZV this.N.toNat }

/-- `void HVector::SetEntry(int n, cdouble Entry)`. -/
def SetEntry (V : HVector D) (n : Int) (Entry : cdouble D) : HVector D :=
  if V.RealComplex = LHM_REAL then
    { V with DV := store V.DV n Entry.real }
  else
    { V with ZV := store V.ZV n Entry }

/-- `void HVector::SetEntry(int n, double Entry)`. -/
def SetEntryD (V : HVector D) (n : Int) (Entry : D) : HVector D :=
  if V.RealComplex = LHM_REAL then
    { V with DV := store V.DV n Entry }
  else
    { V with ZV := store V.ZV n (cdouble.ofDouble Entry) }

/-- `void HVector::AddEntry(int n, cdouble Entry)`. -/
def AddEntry (V : HVector D) (n : Int) (Entry : cdouble D) : HVector D :=
  if V.RealComplex = LHM_REAL then
    { V with DV := store V.DV n (load V.DV n + Entry.real) }
  else
    { V with ZV := store V.ZV n (load V.ZV n + Entry) }

/-- `void HVector::AddEntry(int n, double Entry)`. -/
def AddEntryD (V : HVector D) (n : Int) (Entry : D) : HVector D :=
  if V.RealComplex = LHM_REAL then
    { V with DV := store V.DV n (load V.DV n + Entry) }
  else
    { V with ZV := store V.ZV n (load V.ZV n + (⟨Entry, 0⟩ : cdouble D)) }

/-- `cdouble HVector::GetEntry(int n)`: the value returned and the vector after the call. -/
def GetEntry (V : HVector D) (n : Int) : cdouble D × HVector D :=
  if V.RealComplex = LHM_REAL then
    (cdouble.ofDouble (load V.DV n), V)
  else
    (load V.ZV n, V)

/-- `double HVector::GetEntryD(int n)`: the value returned and the vector after the call. -/
def GetEntryD (V : HVector D) (n : Int) : D × HVector D :=
  if V.RealComplex = LHM_REAL then
    (load V.DV n, V)
  else
    ((load V.ZV n).real, V)

/-- `void HVector::Scale(cdouble Alpha)`. -/
def Scale (V : HVector D) (Alpha : cdouble D) : HVector D :=
  if V.RealComplex = LHM_REAL then
    forLoop (fun n W => { W with DV := store W.DV n (load W.DV n * Alpha.real) }) 0 V.N.toNat V
  else
    forLoop (fun n W => { W with ZV := store W.ZV n (load W.ZV n * Alpha) }) 0 V.N.toNat V

/-- `void HVector::Scale(double Alpha)`. -/
def ScaleD (V : HVector D) (Alpha : D) : HVector D :=
  V.Scale (cdouble.ofDouble Alpha)

/-- `void HVector::Zero()`. -/
def Zero (V : HVector D) : HVector D :=
  if V.RealComplex = LHM_REAL then
    { V with DV := memset0 V.DV V.N.toNat }
  else
    { V with ZV := memset0 V.ZV V.N.toNat }

/-- `void HVector::Copy(HVector *V)` called on `T`.  A call that returns yields `.ok` of the
vector `T` after the call and the lines written to stderr; a fatal exit (`ErrExit`) would be
`.error`.  The warning of the mismatch branch is written with `fprintf`, and the call returns. -/
def Copy (T V : HVector D) : Except String (HVector D × List String) :=
  if V.N ≠ T.N ∨ V.RealComplex ≠ T.RealComplex then
    .ok (T, ["WARNING: vector properties mismatch (copy failed)"])
  else if T.RealComplex = LHM_REAL then
    .ok ({ T with DV := memcpy T.DV V.DV T.N.toNat }, [])
  else
    .ok ({ T with ZV := memcpy T.ZV V.ZV T.N.toNat }, [])

/-- The active buffer of `V` (the one `RealComplex` selects) is present and holds at least `N`
elements, `N` being non-negative: the condition under which every index `0 ≤ i < N` is a
defined access.  It holds of owning vectors and of vectors built over an external buffer
of sufficient size. -/
def Backed (V : HVector D) : Prop :=
  0 ≤ V.N ∧
    if V.RealComplex = LHM_REAL then
      (match V.DV with
        | some b => V.N.toNat ≤ b.length
        | none => False)
    else
      (match V.ZV with
        | some b => V.N.toNat ≤ b.length
        | none => False)

/-- `HVector::~HVector()`: the buffers passed to `free`, in order. -/
def Destroy (V : HVector D) : List (List D ⊕ List (cdouble D)) :=
  if V.ownsV then
    (match V.DV with
      | some b => [Sum.inl b]
      | none => []) ++
    (match V.ZV with
      | some b => [Sum.inr b]
      | none => [])
  else
    []

/-- The representation invariant: exactly one buffer is present, the one `RealComplex`
selects, and it holds exactly `N` elements. -/
def Inv (V : HVector D) : Prop :=
  if V.RealComplex = LHM_REAL then
    (match V.DV with
      | some b => (b.length : Int) = V.N
      | none => False) ∧ V.ZV.isNone
  else
    V.DV.isNone ∧
      (match V.ZV with
        | some b => (b.length : Int) = V.N
        | none => False)

/-- The vector `W` that an operation leaves of `V` satisfies the representation invariant and
has the length, the kind and the ownership flag of `V`. -/
def Preserved (V W : HVector D) : Prop :=
  W.Inv ∧ W.N = V.N ∧ W.RealComplex = V.RealComplex ∧ W.ownsV = V.ownsV

/-- The observable content of `V`: its active buffer holds its elements, its length is `n`,
its kind is `k` and `GetEntry(i)` returns `e i` at every index `0 ≤ i < n`. -/
def Shows (V : HVector D) (n k : Int) (e : Int → cdouble D) : Prop :=
  V.Backed ∧ V.N = n ∧ V.RealComplex = k ∧ ∀ i : Int, 0 ≤ i → i < n → (V.GetEntry i).1 = e i

/-! ### Sample vectors -/

/-- A REAL vector `[5, 7]` over the integers that aliases an external buffer. -/
def aliasedReal : HVector Int := InitHVector 2 LHM_REAL (some [5, 7])

/-- A COMPLEX vector `[1 + 2i, 3 + 4i]` over the integers, built over an external buffer. -/
def sampleComplex : HVector Int := InitHVector 2 LHM_COMPLEX (some [1, 2, 3, 4])

/-- The REAL vector `[1, 2]` over the integers, owning its buffer. -/
def realOneTwo : HVector Int := ((InitHVector 2 LHM_REAL none).SetEntryD 0 1).SetEntryD 1 2

/-- The COMPLEX vector `[3 + 4i]` over the integers, owning its buffer. -/
def complexThreeFour : HVector Int := (InitHVector 1 LHM_COMPLEX none).SetEntry 0 ⟨3, 4⟩

/-- The REAL vector `[1]` over the integers: a zero-filled vector of length 1 with its
element set to 1. -/
def unitReal : HVector Int := (InitHVector 1 LHM_REAL none).SetEntryD 0 1

end HVector

/-! ## The free functions -/

section FreeFunctions

/-- Modelled from the spec: `ErrExit` belongs to libhrutil, which is not part of the sources.
Section 6 of the spec: given a formatted message it reports it and terminates the process. -/
def ErrExit {β : Type} (msg : String) : Except String β := .error msg

/-- `HVector *LinSpace(double Min, double Max, int Num)`.  `new HVector(Num)` takes the
default arguments of the constructor, the kind REAL and no external buffer.  A call that
returns yields `.ok` of the vector and of the divisions it evaluated, each as
(dividend, divisor), in the order of evaluation. -/
def LinSpace {D : Type} [Field D] (Min Max : D) (Num : Int) :
    Except String (HVector D × List (D × D)) :=
  if Num < 1 then
    ErrExit ("LinSpace: invalid N value (" ++ toString Num ++ ")\n")
  else
    let V := HVector.mk_sized Num LHM_REAL (none : Option (List D))
    let V := V.SetEntryD 0 Min
    let Delta := (Max - Min) / ((Num : D) - 1)
    let V := forLoop (fun n W =>
      let r := W.GetEntryD (n - 1)
      r.2.SetEntryD n (r.1 + Delta)) 1 (Num - 1).toNat V
    .ok (V, [(Max - Min, (Num : D) - 1)])

/-- `HVector *LogSpace(double Min, double Max, int Num)`; `exp` and `log` are the functions
of `math.h`.  The result is as for `LinSpace`. -/
def LogSpace {D : Type} [Field D] (exp log : D → D) (Min Max : D) (Num : Int) :
    Except String (HVector D × List (D × D)) :=
  if Num < 1 then
    ErrExit ("LogSpace: invalid N value (" ++ toString Num ++ ")\n")
  else
    let V := HVector.mk_sized Num LHM_REAL (none : Option (List D))
    let V := V.SetEntryD 0 Min
    let Mult := exp (log (Max / Min) / (((Num - 1 : Int) : D)))
    let V := forLoop (fun n W =>
      let r := W.GetEntry (n - 1)
      r.2.SetEntry n (r.1.mulD Mult)) 1 (Num - 1).toNat V
    .ok (V, [(Max, Min), (log (Max / Min), (((Num - 1 : Int) : D)))])

/-- `HVector *Concat(HVector *V1, HVector *V2)`; `none` is the null pointer.  The state of
each loop is the pair of the counter `n` and the vector `V`. -/
def Concat {D : Type} [CommRing D] (V1 V2 : Option (HVector D)) : Option (HVector D) :=
  match V1, V2 with
  | none, none => none
  | none, some W2 => some (HVector.mk_copy W2)
  | some W1, none => some (HVector.mk_copy W1)
  | some W1, some W2 =>
    let RealComplex :=
      if W1.RealComplex = LHM_REAL ∧ W2.RealComplex = LHM_REAL then LHM_REAL else LHM_COMPLEX
    let V := HVector.mk_sized (W1.N + W2.N) RealComplex (none : Option (List D))
    let s := forLoop (fun n1 (s : Int × HVector D) =>
      (s.1 + 1, s.2.SetEntry s.1 (W1.GetEntry n1).1)) 0 W1.N.toNat (0, V)
    let s := forLoop (fun n2 (s : Int × HVector D) =>
      (s.1 + 1, s.2.SetEntry s.1 (W2.GetEntry n2).1)) 0 W2.N.toNat s
    some s.2

/-- Two results of `Concat` with the same observable content: both null, or both vectors of
the same length and kind with the same `GetEntry(i)` at every index `0 ≤ i < N`. -/
def SameContent {D : Type} [CommRing D] (A B : Option (HVector D)) : Prop :=
  match A, B with
  | none, none => True
  | some V, some W =>
    V.N = W.N ∧ V.RealComplex = W.RealComplex ∧
      ∀ i : Int, 0 ≤ i → i < V.N → (V.GetEntry i).1 = (W.GetEntry i).1
  | _, _ => False

end FreeFunctions

/-! ## Buffer lemmas -/

section BufferLemmas

variable {α : Type} [Zero α]

theorem load_some (b : List α) (n : Int) : load (some b) n = b.getD n.toNat 0 := rfl

theorem load_store_self (b : List α) (n : Int) (x : α) (h : n.toNat < b.length) :
    load (store (some b) n x) n = x := by
  simp [load, store, List.getD, h]

theorem load_store_other (p : Option (List α)) (n m : Int) (x : α) (h : n.toNat ≠ m.toNat) :
    load (store p n x) m = load p m := by
  cases p with
  | none => rfl
  | some b => simp [load, store, List.getD, List.getElem?_set, h]

theorem toNat_ne_of_ne {i j : Int} (hi : 0 ≤ i) (hj : 0 ≤ j) (h : j ≠ i) : i.toNat ≠ j.toNat := by
  omega

theorem getD_take_of_lt (b : List α) (n i : Nat) (h : i < n) :
    (b.take n).getD i 0 = b.getD i 0 := by
  simp [List.getD, List.getElem?_take, h]

theorem load_memcpy (d s : List α) (n : Nat) (i : Int) (hi : i.toNat < n) (hn : n ≤ s.length) :
    load (memcpy (some d) (some s) n) i = load (some s) i := by
  have h1 : i.toNat < (s.take n).length := by
    rw [List.length_take]; omega
  simp only [load, memcpy, List.getD_eq_getElem?_getD]
  rw [List.getElem?_append_left h1, List.getElem?_take_of_lt hi]

theorem load_memset0 (d : List α) (n : Nat) (i : Int) (hi : i.toNat < n) :
    load (memset0 (some d) n) i = 0 := by
  have h1 : i.toNat < (List.replicate n (0 : α)).length := by
    rw [List.length_replicate]; exact hi
  simp only [load, memset0, Option.map_some', List.getD_eq_getElem?_getD]
  rw [List.getElem?_append_left h1]
  simp [List.getElem?_replicate, hi]

theorem getD_set_eq_ite (b : List α) (lo i : Nat) (x : α) (h : lo < b.length) :
    (b.set lo x).getD i 0 = if i = lo then x else b.getD i 0 := by
  by_cases e : i = lo
  · subst e
    simp [List.getD_eq_getElem?_getD, List.getElem?_set, h]
  · have e2 : ¬ lo = i := fun q => e q.symm
    simp [List.getD_eq_getElem?_getD, List.getElem?_set, e, e2]

/-- The loop `for (n = lo; n < lo + k; n++) p[n] = f(p[n])` over a buffer that holds the
indices it visits: the buffer keeps its length, the visited elements are mapped by `f` and
the others are kept. -/
theorem forLoop_store (f : α → α) (k : Nat) :
    ∀ (lo : Nat) (b : List α), lo + k ≤ b.length →
      ∃ r, forLoop (fun n p => store p n (f (load p n))) (lo : Int) k (some b) = some r ∧
        r.length = b.length ∧
        ∀ i : Nat, r.getD i 0 = if lo ≤ i ∧ i < lo + k then f (b.getD i 0) else b.getD i 0 := by
  induction k with
  | zero =>
    intro lo b _
    refine ⟨b, rfl, rfl, fun i => ?_⟩
    have : ¬ (lo ≤ i ∧ i < lo + 0) := by omega
    rw [if_neg this]
  | succ k ih =>
    intro lo b hlen
    have hlo : lo < b.length := by omega
    have hlen2 : lo + 1 + k ≤ (b.set lo (f (b.getD lo 0))).length := by
      rw [List.length_set]; omega
    obtain ⟨r, hr, hrl, hri⟩ := ih (lo + 1) (b.set lo (f (b.getD lo 0))) hlen2
    refine ⟨r, ?_, ?_, fun i => ?_⟩
    · have e : ((lo : Int) + 1) = ((lo + 1 : Nat) : Int) := by push_cast; rfl
      simp only [forLoop]
      rw [e]
      simpa [store, load] using hr
    · rw [hrl, List.length_set]
    · rw [hri i, getD_set_eq_ite b lo i _ hlo]
      by_cases e : i = lo
      · subst e
        have h1 : ¬ (i + 1 ≤ i ∧ i < i + 1 + k) := by omega
        have h2 : i ≤ i ∧ i < i + (k + 1) := by omega
        rw [if_neg h1, if_pos h2, if_pos rfl]
      · by_cases c : lo + 1 ≤ i ∧ i < lo + 1 + k
        · have h2 : lo ≤ i ∧ i < lo + (k + 1) := by omega
          rw [if_pos c, if_pos h2, if_neg e]
        · have h2 : ¬ (lo ≤ i ∧ i < lo + (k + 1)) := by omega
          rw [if_neg c, if_neg h2, if_neg e]

end BufferLemmas

/-! ## Construction -/

namespace HVector

theorem Backed.real {D : Type} {V : HVector D} (h : V.Backed) (hr : V.RealComplex = LHM_REAL) :
    ∃ b, V.DV = some b ∧ V.N.toNat ≤ b.length := by
  have h2 := h.2
  rw [if_pos hr] at h2
  cases hb : V.DV with
  | none => rw [hb] at h2; exact h2.elim
  | some b => rw [hb] at h2; exact ⟨b, rfl, h2⟩

theorem Backed.cplx {D : Type} {V : HVector D} (h : V.Backed) (hr : ¬ V.RealComplex = LHM_REAL) :
    ∃ b, V.ZV = some b ∧ V.N.toNat ≤ b.length := by
  have h2 := h.2
  rw [if_neg hr] at h2
  cases hb : V.ZV with
  | none => rw [hb] at h2; exact h2.elim
  | some b => rw [hb] at h2; exact ⟨b, rfl, h2⟩

theorem toNat_lt_of_range {i n : Int} (hi0 : 0 ≤ i) (hin : i < n) : i.toNat < n.toNat := by
  omega

theorem Inv_real_buffer {D : Type} {V : HVector D} (h : V.Inv) (hr : V.RealComplex = LHM_REAL) :
    ∃ b, V.DV = some b ∧ (b.length : Int) = V.N ∧ V.ZV = none := by
  unfold HVector.Inv at h
  rw [if_pos hr] at h
  cases hb : V.DV with
  | none => rw [hb] at h; exact h.1.elim
  | some b =>
    rw [hb] at h
    exact ⟨b, rfl, h.1, Option.isNone_iff_eq_none.mp h.2⟩

theorem Inv_cplx_buffer {D : Type} {V : HVector D} (h : V.Inv) (hr : ¬ V.RealComplex = LHM_REAL) :
    ∃ b, V.ZV = some b ∧ (b.length : Int) = V.N ∧ V.DV = none := by
  unfold HVector.Inv at h
  rw [if_neg hr] at h
  cases hb : V.ZV with
  | none => rw [hb] at h; exact h.2.elim
  | some b =>
    rw [hb] at h
    exact ⟨b, rfl, h.2, Option.isNone_iff_eq_none.mp h.1⟩

theorem Inv_backed {D : Type} {V : HVector D} (h : V.Inv) : V.Backed := by
  by_cases hr : V.RealComplex = LHM_REAL
  · obtain ⟨b, hb, hl, _⟩ := Inv_real_buffer h hr
    refine ⟨by omega, ?_⟩
    simp only [hr, if_true, hb]
    omega
  · obtain ⟨b, hb, hl, _⟩ := Inv_cplx_buffer h hr
    refine ⟨by omega, ?_⟩
    simp only [hr, if_false, hb]
    omega

theorem Inv_of_real {D : Type} (V : HVector D) (b : List D) (hr : V.RealComplex = LHM_REAL)
    (hz : V.ZV = none) (hl : (b.length : Int) = V.N) :
    HVector.Inv { V with DV := some b } := by
  simp only [HVector.Inv, hr, if_true, hl, hz, Option.isNone_none, and_self]

theorem Inv_of_cplx {D : Type} (V : HVector D) (b : List (cdouble D)) (hr : ¬ V.RealComplex = LHM_REAL)
    (hd : V.DV = none) (hl : (b.length : Int) = V.N) :
    HVector.Inv { V with ZV := some b } := by
  simp only [HVector.Inv, hr, if_false, hl, hd, Option.isNone_none, and_self]

variable {D : Type} [CommRing D]

/-- C1. For every length `n ≥ 0` and every kind `k`, the vector that `InitHVector` builds
without an external buffer (the allocator returning zero-initialised memory) has length `n`
and kind `k`, and `GetEntry(i)` returns `0 + 0i` at every index `0 ≤ i < n`.  The reads are
reads of storage: the vector satisfies the representation invariant (exactly the buffer of
its kind is present, with exactly `n` elements), it owns that buffer, and the buffer is `n`
zeros. -/
theorem zero_filled_construction (n k : Int) (hn : 0 ≤ n)
    (hk : k = LHM_REAL ∨ k = LHM_COMPLEX) :
    (InitHVector n k (none : Option (List D))).N = n ∧
    (InitHVector n k (none : Option (List D))).RealComplex = k ∧
    (∀ i : Int, 0 ≤ i → i < n →
      ((InitHVector n k (none : Option (List D))).GetEntry i).1 = (0 : cdouble D)) ∧
    (InitHVector n k (none : Option (List D))).Inv ∧
    (InitHVector n k (none : Option (List D))).ownsV = true ∧
    (k = LHM_REAL →
      (InitHVector n k (none : Option (List D))).DV = some (List.replicate n.toNat 0)) ∧
    (k = LHM_COMPLEX →
      (InitHVector n k (none : Option (List D))).ZV = some (List.replicate n.toNat 0)) := by
  have hlt : ∀ i : Int, 0 ≤ i → i < n → i.toNat < n.toNat := by omega
  have hN : ((n.toNat : Nat) : Int) = n := Int.toNat_of_nonneg hn
  rcases hk with rfl | rfl
  · refine ⟨rfl, rfl, fun i hi0 hin => ?_, ?_, rfl, fun _ => rfl, fun hc => ?_⟩
    · have h := hlt i hi0 hin
      simp [InitHVector, GetEntry, load, mallocEC, List.getD, List.getElem?_replicate, h]
      rfl
    · simp [InitHVector, HVector.Inv, mallocEC, hN]
    · exact absurd hc.symm (by decide)
  · refine ⟨rfl, rfl, fun i hi0 hin => ?_, ?_, rfl, fun hc => ?_, fun _ => rfl⟩
    · have h := hlt i hi0 hin
      simp [InitHVector, GetEntry, load, mallocEC, List.getD, List.getElem?_replicate, h,
        LHM_REAL, LHM_COMPLEX]
    · simp [InitHVector, HVector.Inv, mallocEC, hN, LHM_REAL, LHM_COMPLEX]
    · exact absurd hc (by decide)

/-- The witness of C1: a COMPLEX vector of length 3 over the integers, read at index 2; its
buffer is `ZV`, three zeros, and `DV` is null. -/
theorem zero_filled_construction_witness :
    (0 : Int) ≤ 3 ∧
    ((InitHVector 3 LHM_COMPLEX (none : Option (List Int))).GetEntry 2).1 = (0 : cdouble Int) ∧
    (InitHVector 3 LHM_COMPLEX (none : Option (List Int))).Inv ∧
    (InitHVector 3 LHM_COMPLEX (none : Option (List Int))).ZV = some [0, 0, 0] ∧
    (InitHVector 3 LHM_COMPLEX (none : Option (List Int))).DV = none :=
  ⟨by decide,
    (zero_filled_construction (D := Int) 3 LHM_COMPLEX (by decide) (Or.inr rfl)).2.2.1 2
      (by decide) (by decide),
    (zero_filled_construction (D := Int) 3 LHM_COMPLEX (by decide) (Or.inr rfl)).2.2.2.1,
    (zero_filled_construction (D := Int) 3 LHM_COMPLEX (by decide) (Or.inr rfl)).2.2.2.2.2.2 rfl,
    rfl⟩

/-- C2. For every vector `V` whose active buffer holds its `N` elements (whether `V` owns
the buffer or aliases an external one), the copy constructor returns a vector of the same
length and kind, equal to `V` under `GetEntry` at every index `0 ≤ i < V.N`, and with
`ownsV` true whatever the flag of `V` is. -/
theorem copy_constructor_roundtrip (V : HVector D) (hV : V.Backed) :
    (mk_copy V).N = V.N ∧ (mk_copy V).RealComplex = V.RealComplex ∧
    (mk_copy V).ownsV = true ∧
    ∀ i : Int, 0 ≤ i → i < V.N → ((mk_copy V).GetEntry i).1 = (V.GetEntry i).1 := by
  by_cases hr : V.RealComplex = LHM_REAL
  · obtain ⟨b, hb, hlen⟩ := hV.real hr
    refine ⟨?_, ?_, ?_, fun i hi0 hin => ?_⟩
    · simp [mk_copy, InitHVector, hr]
    · simp [mk_copy, InitHVector, hr]
    · simp [mk_copy, InitHVector, hr]
    · have h := toNat_lt_of_range hi0 hin
      simp only [mk_copy, InitHVector, GetEntry, hr, if_true, hb]
      rw [load_memcpy _ _ _ _ h hlen]
  · obtain ⟨b, hb, hlen⟩ := hV.cplx hr
    refine ⟨?_, ?_, ?_, fun i hi0 hin => ?_⟩
    · simp [mk_copy, InitHVector, hr]
    · simp [mk_copy, InitHVector, hr]
    · simp [mk_copy, InitHVector, hr]
    · have h := toNat_lt_of_range hi0 hin
      simp only [mk_copy, InitHVector, GetEntry, hr, if_false, hb]
      rw [load_memcpy _ _ _ _ h hlen]

theorem aliasedReal_backed : aliasedReal.Backed := by
  simp [aliasedReal, Backed, InitHVector]

/-- The witness of C2: the copy of a vector that does not own its buffer owns its own. -/
theorem copy_constructor_roundtrip_witness :
    aliasedReal.Backed ∧ aliasedReal.ownsV = false ∧ (mk_copy aliasedReal).ownsV = true ∧
    ((mk_copy aliasedReal).GetEntry 1).1 = (aliasedReal.GetEntry 1).1 :=
  ⟨aliasedReal_backed, rfl, (copy_constructor_roundtrip aliasedReal aliasedReal_backed).2.2.1,
    (copy_constructor_roundtrip aliasedReal aliasedReal_backed).2.2.2 1 (by decide) (by decide)⟩

theorem aliasedReal_real : aliasedReal.RealComplex = LHM_REAL := rfl

theorem sampleComplex_backed : sampleComplex.Backed := by
  simp [sampleComplex, Backed, InitHVector, castCdouble, LHM_REAL, LHM_COMPLEX]

theorem sampleComplex_complex : sampleComplex.RealComplex = LHM_COMPLEX := rfl

theorem LHM_COMPLEX_ne_REAL : ¬ LHM_COMPLEX = LHM_REAL := by decide

/-! ## Element access -/

/-- C3. Truncation law: for a REAL vector `V`, an index `0 ≤ i < N` and a complex value `z`,
after `SetEntry(i, z)` the call `GetEntryD(i)` returns the real part of `z` and
`GetEntry(i)` returns the complex number `(real(z), 0)`, whose imaginary part is zero. -/
theorem truncation_law (V : HVector D) (hV : V.Backed) (hr : V.RealComplex = LHM_REAL)
    (i : Int) (hi0 : 0 ≤ i) (hin : i < V.N) (z : cdouble D) :
    ((V.SetEntry i z).GetEntryD i).1 = z.real ∧
    ((V.SetEntry i z).GetEntry i).1 = ⟨z.real, 0⟩ ∧
    ((V.SetEntry i z).GetEntry i).1.imag = 0 := by
  obtain ⟨b, hb, hlen⟩ := hV.real hr
  have h : i.toNat < b.length := lt_of_lt_of_le (toNat_lt_of_range hi0 hin) hlen
  refine ⟨?_, ?_, ?_⟩ <;>
    simp [SetEntry, GetEntry, GetEntryD, hr, hb, load_store_self b i _ h, cdouble.ofDouble,
      cdouble.imag]

/-- The witness of C3: writing `9 + 4i` at index 1 of the REAL vector `[5, 7]`. -/
theorem truncation_law_witness :
    aliasedReal.Backed ∧ aliasedReal.RealComplex = LHM_REAL ∧
    ((aliasedReal.SetEntry 1 ⟨9, 4⟩).GetEntryD 1).1 = 9 ∧
    ((aliasedReal.SetEntry 1 ⟨9, 4⟩).GetEntry 1).1 = ⟨9, 0⟩ :=
  ⟨aliasedReal_backed, aliasedReal_real,
    (truncation_law aliasedReal aliasedReal_backed aliasedReal_real 1 (by decide) (by decide)
      ⟨9, 4⟩).1,
    (truncation_law aliasedReal aliasedReal_backed aliasedReal_real 1 (by decide) (by decide)
      ⟨9, 4⟩).2.1⟩

/-- C4. For every vector `V` and index `0 ≤ i < N`: `GetEntryD(i)` is the real part of
`GetEntry(i)`; if `V` is REAL the imaginary part of `GetEntry(i)` is zero; if `V` is COMPLEX
then `GetEntry(i)` is the element stored at position `i` of `ZV`, and `SetEntry(i, z)`
followed by `GetEntry(i)` returns `z`. -/
theorem get_entry_views (V : HVector D) (hV : V.Backed) (i : Int) (hi0 : 0 ≤ i)
    (hin : i < V.N) :
    (V.GetEntryD i).1 = (V.GetEntry i).1.real ∧
    (V.RealComplex = LHM_REAL → (V.GetEntry i).1.imag = 0) ∧
    (V.RealComplex = LHM_COMPLEX →
      (∃ b, V.ZV = some b ∧ b[i.toNat]? = some (V.GetEntry i).1) ∧
      ∀ z : cdouble D, ((V.SetEntry i z).GetEntry i).1 = z) := by
  refine ⟨?_, ?_, ?_⟩
  · by_cases hr : V.RealComplex = LHM_REAL <;> simp [GetEntry, GetEntryD, hr, cdouble.real,
      cdouble.ofDouble]
  · intro hr
    simp [GetEntry, hr, cdouble.imag, cdouble.ofDouble]
  · intro hc
    have hr : ¬ V.RealComplex = LHM_REAL := by rw [hc]; exact LHM_COMPLEX_ne_REAL
    obtain ⟨b, hb, hlen⟩ := hV.cplx hr
    have h : i.toNat < b.length := lt_of_lt_of_le (toNat_lt_of_range hi0 hin) hlen
    refine ⟨⟨b, hb, ?_⟩, fun z => ?_⟩
    · simp [GetEntry, hr, hb, load, List.getD_eq_getElem?_getD, List.getElem?_eq_getElem h]
    · simp only [SetEntry, GetEntry, hr, if_false, hb, load_store_self b i _ h]

/-- The witness of C4: the COMPLEX vector `[1 + 2i, 3 + 4i]` read and overwritten at index 1. -/
theorem get_entry_views_witness :
    sampleComplex.Backed ∧ sampleComplex.RealComplex = LHM_COMPLEX ∧
    (sampleComplex.GetEntryD 1).1 = (sampleComplex.GetEntry 1).1.real ∧
    ((sampleComplex.SetEntry 1 ⟨8, 9⟩).GetEntry 1).1 = ⟨8, 9⟩ :=
  ⟨sampleComplex_backed, sampleComplex_complex,
    (get_entry_views sampleComplex sampleComplex_backed 1 (by decide) (by decide)).1,
    ((get_entry_views sampleComplex sampleComplex_backed 1 (by decide) (by decide)).2.2
      sampleComplex_complex).2 ⟨8, 9⟩⟩

/-- C5. For every vector `V`, indices `i` and `j ≠ i` in range and value `v` (complex `z` or
real `x`): `SetEntry(i, v)` and `AddEntry(i, v)` leave `GetEntry(j)` as it was, and
`GetEntry` and `GetEntryD` leave the whole vector as it was. -/
theorem entry_frame (V : HVector D) (i j : Int) (hi0 : 0 ≤ i) (_hin : i < V.N)
    (hj0 : 0 ≤ j) (_hjn : j < V.N) (hji : j ≠ i) (z : cdouble D) (x : D) :
    ((V.SetEntry i z).GetEntry j).1 = (V.GetEntry j).1 ∧
    ((V.SetEntryD i x).GetEntry j).1 = (V.GetEntry j).1 ∧
    ((V.AddEntry i z).GetEntry j).1 = (V.GetEntry j).1 ∧
    ((V.AddEntryD i x).GetEntry j).1 = (V.GetEntry j).1 ∧
    (V.GetEntry i).2 = V ∧ (V.GetEntryD i).2 = V := by
  have h := toNat_ne_of_ne hi0 hj0 hji
  by_cases hr : V.RealComplex = LHM_REAL
  · simp [SetEntry, SetEntryD, AddEntry, AddEntryD, GetEntry, GetEntryD, hr,
      load_store_other _ i j _ h]
  · simp [SetEntry, SetEntryD, AddEntry, AddEntryD, GetEntry, GetEntryD, hr,
      load_store_other _ i j _ h]

/-- The witness of C5: writing at index 0 of `[1 + 2i, 3 + 4i]` and reading index 1. -/
theorem entry_frame_witness :
    ((sampleComplex.SetEntry 0 ⟨8, 9⟩).GetEntry 1).1 = (sampleComplex.GetEntry 1).1 ∧
    ((sampleComplex.AddEntry 0 ⟨8, 9⟩).GetEntry 1).1 = (sampleComplex.GetEntry 1).1 ∧
    (sampleComplex.GetEntry 0).2 = sampleComplex :=
  ⟨(entry_frame sampleComplex 0 1 (by decide) (by decide) (by decide) (by decide) (by decide)
      ⟨8, 9⟩ 0).1,
    (entry_frame sampleComplex 0 1 (by decide) (by decide) (by decide) (by decide) (by decide)
      ⟨8, 9⟩ 0).2.2.1,
    (entry_frame sampleComplex 0 1 (by decide) (by decide) (by decide) (by decide) (by decide)
      ⟨8, 9⟩ 0).2.2.2.2.1⟩

/-- C6. For every vector `V`, index `0 ≤ i < N` and value `v` (complex `z` or real `x`):
after `AddEntry(i, v)`, `GetEntry(i)` is the previous `GetEntry(i)` plus `v` if `V` is COMPLEX
(a real `x` being added as `x + 0i`), and the previous value plus `real(v)` if `V` is REAL;
and `AddEntry(i, v)` leaves the vector in the state `SetEntry(i, GetEntry(i) + v)` leaves
it in. -/
theorem add_entry_accumulates (V : HVector D) (hV : V.Backed) (i : Int) (hi0 : 0 ≤ i)
    (hin : i < V.N) (z : cdouble D) (x : D) :
    (V.RealComplex = LHM_COMPLEX →
      ((V.AddEntry i z).GetEntry i).1 = (V.GetEntry i).1 + z ∧
      ((V.AddEntryD i x).GetEntry i).1 = (V.GetEntry i).1 + cdouble.ofDouble x) ∧
    (V.RealComplex = LHM_REAL →
      ((V.AddEntry i z).GetEntry i).1 = cdouble.ofDouble ((V.GetEntryD i).1 + z.real) ∧
      ((V.AddEntryD i x).GetEntry i).1 = cdouble.ofDouble ((V.GetEntryD i).1 + x)) ∧
    V.AddEntry i z = V.SetEntry i ((V.GetEntry i).1 + z) ∧
    V.AddEntryD i x = V.SetEntry i ((V.GetEntry i).1 + cdouble.ofDouble x) := by
  refine ⟨fun hc => ?_, fun hr => ?_, ?_, ?_⟩
  · have hr : ¬ V.RealComplex = LHM_REAL := by rw [hc]; exact LHM_COMPLEX_ne_REAL
    obtain ⟨b, hb, hlen⟩ := hV.cplx hr
    have h : i.toNat < b.length := lt_of_lt_of_le (toNat_lt_of_range hi0 hin) hlen
    constructor <;>
      simp [AddEntry, AddEntryD, GetEntry, hr, hb, load_store_self b i _ h, cdouble.ofDouble]
  · obtain ⟨b, hb, hlen⟩ := hV.real hr
    have h : i.toNat < b.length := lt_of_lt_of_le (toNat_lt_of_range hi0 hin) hlen
    constructor <;>
      simp [AddEntry, AddEntryD, GetEntry, GetEntryD, hr, hb, load_store_self b i _ h]
  · by_cases hr : V.RealComplex = LHM_REAL
    · simp only [AddEntry, SetEntry, GetEntry, hr, if_true]
      rfl
    · simp only [AddEntry, SetEntry, GetEntry, hr, if_false]
  · by_cases hr : V.RealComplex = LHM_REAL
    · simp only [AddEntryD, SetEntry, GetEntry, hr, if_true]
      have e : (cdouble.ofDouble (load V.DV i) + cdouble.ofDouble x).real = load V.DV i + x :=
        rfl
      rw [e]
    · simp only [AddEntryD, SetEntry, GetEntry, hr, if_false]
      rfl

/-- The witness of C6: adding `8 + 9i` at index 1 of `[1 + 2i, 3 + 4i]` gives `11 + 13i`. -/
theorem add_entry_accumulates_witness :
    sampleComplex.Backed ∧
    ((sampleComplex.AddEntry 1 ⟨8, 9⟩).GetEntry 1).1 = (sampleComplex.GetEntry 1).1 + ⟨8, 9⟩ ∧
    sampleComplex.AddEntry 1 ⟨8, 9⟩ =
      sampleComplex.SetEntry 1 ((sampleComplex.GetEntry 1).1 + ⟨8, 9⟩) :=
  ⟨sampleComplex_backed,
    ((add_entry_accumulates sampleComplex sampleComplex_backed 1 (by decide) (by decide)
      ⟨8, 9⟩ 0).1 sampleComplex_complex).1,
    (add_entry_accumulates sampleComplex sampleComplex_backed 1 (by decide) (by decide)
      ⟨8, 9⟩ 0).2.2.1⟩

/-! ## Bulk operations -/

theorem forLoop_DV (f : D → D) (k : Nat) :
    ∀ (lo : Int) (V : HVector D),
      forLoop (fun n W => { W with DV := store W.DV n (f (load W.DV n)) }) lo k V =
        { V with DV := forLoop (fun n p => store p n (f (load p n))) lo k V.DV } := by
  induction k with
  | zero => intro lo V; rfl
  | succ k ih => intro lo V; simp only [forLoop]; rw [ih]

theorem forLoop_ZV (f : cdouble D → cdouble D) (k : Nat) :
    ∀ (lo : Int) (V : HVector D),
      forLoop (fun n W => { W with ZV := store W.ZV n (f (load W.ZV n)) }) lo k V =
        { V with ZV := forLoop (fun n p => store p n (f (load p n))) lo k V.ZV } := by
  induction k with
  | zero => intro lo V; rfl
  | succ k ih => intro lo V; simp only [forLoop]; rw [ih]

/-- The effect of `Scale` on a REAL vector: only `DV` changes, it keeps its length, and each of
its first `N` elements is multiplied by `real(Alpha)`. -/
theorem Scale_real (V : HVector D) (hV : V.Backed) (hr : V.RealComplex = LHM_REAL)
    (a : cdouble D) :
    ∃ b r, V.DV = some b ∧ V.Scale a = { V with DV := some r } ∧ r.length = b.length ∧
      ∀ i : Nat, i < V.N.toNat → r.getD i 0 = b.getD i 0 * a.real := by
  obtain ⟨b, hb, hlen⟩ := hV.real hr
  obtain ⟨r, h1, h2, h3⟩ := forLoop_store (fun y : D => y * a.real) V.N.toNat 0 b (by omega)
  refine ⟨b, r, hb, ?_, h2, fun i hi => ?_⟩
  · have h1c : forLoop (fun n p => store p n (load p n * a.real)) 0 V.N.toNat (some b) =
        some r := by simpa using h1
    rw [Scale, if_pos hr, forLoop_DV (fun y : D => y * a.real), hb, h1c]
  · rw [h3 i, if_pos (by omega)]

/-- The effect of `Scale` on a vector that is not REAL: only `ZV` changes, it keeps its length,
and each of its first `N` elements is multiplied by `Alpha`. -/
theorem Scale_cplx (V : HVector D) (hV : V.Backed) (hr : ¬ V.RealComplex = LHM_REAL)
    (a : cdouble D) :
    ∃ b r, V.ZV = some b ∧ V.Scale a = { V with ZV := some r } ∧ r.length = b.length ∧
      ∀ i : Nat, i < V.N.toNat → r.getD i 0 = b.getD i 0 * a := by
  obtain ⟨b, hb, hlen⟩ := hV.cplx hr
  obtain ⟨r, h1, h2, h3⟩ := forLoop_store (fun y : cdouble D => y * a) V.N.toNat 0 b (by omega)
  refine ⟨b, r, hb, ?_, h2, fun i hi => ?_⟩
  · have h1c : forLoop (fun n p => store p n (load p n * a)) 0 V.N.toNat (some b) =
        some r := by simpa using h1
    rw [Scale, if_neg hr, forLoop_ZV (fun y : cdouble D => y * a), hb, h1c]
  · rw [h3 i, if_pos (by omega)]

/-- C7. For every vector `V`, factor `Alpha` and index `0 ≤ i < N`: after `Scale(Alpha)`,
`GetEntry(i)` is the previous `GetEntry(i)` times `Alpha` (complex multiplication) if `V` is
COMPLEX, and `GetEntryD(i)` is the previous `GetEntryD(i)` times `real(Alpha)` if `V` is
REAL; `Scale` with a real factor `x` is `Scale` with the complex factor `x + 0i`. -/
theorem scale_elements (V : HVector D) (hV : V.Backed) (a : cdouble D) (x : D) (i : Int)
    (hi0 : 0 ≤ i) (hin : i < V.N) :
    (V.RealComplex = LHM_COMPLEX → ((V.Scale a).GetEntry i).1 = (V.GetEntry i).1 * a) ∧
    (V.RealComplex = LHM_REAL → ((V.Scale a).GetEntryD i).1 = (V.GetEntryD i).1 * a.real) ∧
    V.ScaleD x = V.Scale ⟨x, 0⟩ := by
  have h := toNat_lt_of_range hi0 hin
  refine ⟨fun hc => ?_, fun hr => ?_, rfl⟩
  · have hr : ¬ V.RealComplex = LHM_REAL := by rw [hc]; exact LHM_COMPLEX_ne_REAL
    obtain ⟨b, r, hb, hs, _, hri⟩ := Scale_cplx V hV hr a
    rw [hs]
    simp only [GetEntry, hr, if_false, hb, load]
    exact hri _ h
  · obtain ⟨b, r, hb, hs, _, hri⟩ := Scale_real V hV hr a
    rw [hs]
    simp only [GetEntryD, hr, if_true, hb, load]
    exact hri _ h

/-- The witness of C7: `[1 + 2i, 3 + 4i]` scaled by `i`; element 1 becomes `-4 + 3i`. -/
theorem scale_elements_witness :
    sampleComplex.Backed ∧
    ((sampleComplex.Scale ⟨0, 1⟩).GetEntry 1).1 = (sampleComplex.GetEntry 1).1 * ⟨0, 1⟩ ∧
    (sampleComplex.GetEntry 1).1 * ⟨0, 1⟩ = (⟨-4, 3⟩ : cdouble Int) :=
  ⟨sampleComplex_backed,
    (scale_elements sampleComplex sampleComplex_backed ⟨0, 1⟩ 0 1 (by decide) (by decide)).1
      sampleComplex_complex,
    by decide⟩

theorem Backed_Scale (V : HVector D) (hV : V.Backed) (a : cdouble D) :
    (V.Scale a).Backed ∧ (V.Scale a).N = V.N ∧ (V.Scale a).RealComplex = V.RealComplex := by
  by_cases hr : V.RealComplex = LHM_REAL
  · obtain ⟨b, r, hb, hs, hl, _⟩ := Scale_real V hV hr a
    obtain ⟨b2, hb2, hlen⟩ := hV.real hr
    have e : b2 = b := by rw [hb] at hb2; exact (Option.some.inj hb2).symm
    subst e
    rw [hs]
    refine ⟨⟨hV.1, ?_⟩, rfl, rfl⟩
    simp only [hr, if_true]
    omega
  · obtain ⟨b, r, hb, hs, hl, _⟩ := Scale_cplx V hV hr a
    obtain ⟨b2, hb2, hlen⟩ := hV.cplx hr
    have e : b2 = b := by rw [hb] at hb2; exact (Option.some.inj hb2).symm
    subst e
    rw [hs]
    refine ⟨⟨hV.1, ?_⟩, rfl, rfl⟩
    simp only [hr, if_false]
    omega

theorem cdouble_mul_assoc (x a b : cdouble D) : x * a * b = x * (a * b) := by
  cases x; cases a; cases b
  apply cdouble.ext
  · show (_ * _ - _ * _) * _ - (_ * _ + _ * _) * _ = _ * (_ * _ - _ * _) - _ * (_ * _ + _ * _)
    ring
  · show (_ * _ - _ * _) * _ + (_ * _ + _ * _) * _ = _ * (_ * _ + _ * _) + _ * (_ * _ - _ * _)
    ring

/-- The counterexample to C8 as stated: on the REAL vector `[1]`, `Scale(i)` followed by
`Scale(i)` leaves `0`, while the single call `Scale(i * i)`, that is `Scale(-1)`, leaves `-1`. -/
theorem scale_compose_counterexample :
    unitReal.Backed ∧ unitReal.RealComplex = LHM_REAL ∧
    (((unitReal.Scale ⟨0, 1⟩).Scale ⟨0, 1⟩).GetEntry 0).1 = ⟨0, 0⟩ ∧
    ((unitReal.Scale ((⟨0, 1⟩ : cdouble Int) * ⟨0, 1⟩)).GetEntry 0).1 = ⟨-1, 0⟩ ∧
    (((unitReal.Scale ⟨0, 1⟩).Scale ⟨0, 1⟩).GetEntry 0).1 ≠
      ((unitReal.Scale ((⟨0, 1⟩ : cdouble Int) * ⟨0, 1⟩)).GetEntry 0).1 := by
  refine ⟨?_, rfl, ?_, ?_, ?_⟩
  · simp [unitReal, Backed, InitHVector, SetEntryD, store, mallocEC]
  · decide
  · decide
  · decide

/-- C8, amended. For every vector `V` and factors `a`, `b` such that `V` is not REAL or
`imag(a) * imag(b) = 0` (as when one of the factors is real), `Scale(a)` followed by
`Scale(b)` leaves at every index `0 ≤ i < N` the element that the single call `Scale(a * b)`
leaves there. -/
theorem scale_compose (V : HVector D) (hV : V.Backed) (a b : cdouble D)
    (hab : V.RealComplex = LHM_REAL → a.imag * b.imag = 0) (i : Int) (hi0 : 0 ≤ i)
    (hin : i < V.N) :
    (((V.Scale a).Scale b).GetEntry i).1 = ((V.Scale (a * b)).GetEntry i).1 := by
  have h := toNat_lt_of_range hi0 hin
  obtain ⟨hV1, hN1, hR1⟩ := Backed_Scale V hV a
  by_cases hr : V.RealComplex = LHM_REAL
  · have hr1 : (V.Scale a).RealComplex = LHM_REAL := by rw [hR1]; exact hr
    obtain ⟨b0, r1, hb0, hs1, _, hr1i⟩ := Scale_real V hV hr a
    obtain ⟨b1, r2, hb1, hs2, _, hr2i⟩ := Scale_real (V.Scale a) hV1 hr1 b
    obtain ⟨b3, r3, hb3, hs3, _, hr3i⟩ := Scale_real V hV hr (a * b)
    have e1 : b1 = r1 := by
      rw [hs1] at hb1; exact (Option.some.inj hb1).symm
    have e3 : b3 = b0 := by
      rw [hb0] at hb3; exact (Option.some.inj hb3).symm
    subst e1 e3
    have hN : (V.Scale a).N.toNat = V.N.toNat := by rw [hN1]
    have k2 := hr2i i.toNat (by rw [hN]; exact h)
    have k1 := hr1i i.toNat h
    have k3 := hr3i i.toNat h
    have him : a.im * b.im = 0 := hab hr
    have hre : (a * b).real = a.real * b.real := by
      show a.re * b.re - a.im * b.im = a.re * b.re
      rw [him, sub_zero]
    rw [hs2, hs3]
    simp only [GetEntry, hr1, hr, if_true, load]
    rw [k2, k1, k3, hre, mul_assoc]
  · have hr1 : ¬ (V.Scale a).RealComplex = LHM_REAL := by rw [hR1]; exact hr
    obtain ⟨b0, r1, hb0, hs1, _, hr1i⟩ := Scale_cplx V hV hr a
    obtain ⟨b1, r2, hb1, hs2, _, hr2i⟩ := Scale_cplx (V.Scale a) hV1 hr1 b
    obtain ⟨b3, r3, hb3, hs3, _, hr3i⟩ := Scale_cplx V hV hr (a * b)
    have e1 : b1 = r1 := by
      rw [hs1] at hb1; exact (Option.some.inj hb1).symm
    have e3 : b3 = b0 := by
      rw [hb0] at hb3; exact (Option.some.inj hb3).symm
    subst e1 e3
    have hN : (V.Scale a).N.toNat = V.N.toNat := by rw [hN1]
    have k2 := hr2i i.toNat (by rw [hN]; exact h)
    have k1 := hr1i i.toNat h
    have k3 := hr3i i.toNat h
    rw [hs2, hs3]
    simp only [GetEntry, hr1, hr, if_false, load]
    rw [k2, k1, k3, cdouble_mul_assoc]

/-- The witness of C8, amended: a REAL vector scaled by `2 + 3i` and then by the real factor
`5`, against the single factor `(2 + 3i) * 5`. -/
theorem scale_compose_witness :
    aliasedReal.Backed ∧ (⟨2, 3⟩ : cdouble Int).imag * (⟨5, 0⟩ : cdouble Int).imag = 0 ∧
    (((aliasedReal.Scale ⟨2, 3⟩).Scale ⟨5, 0⟩).GetEntry 1).1 =
      ((aliasedReal.Scale ((⟨2, 3⟩ : cdouble Int) * ⟨5, 0⟩)).GetEntry 1).1 :=
  ⟨aliasedReal_backed, by decide,
    scale_compose aliasedReal aliasedReal_backed ⟨2, 3⟩ ⟨5, 0⟩ (fun _ => by decide) 1
      (by decide) (by decide)⟩

/-- C9. For every vector `V`, after `Zero()` the length and the kind of `V` are what they
were and `GetEntry(i)` returns `0` at every index `0 ≤ i < N`.  The reads are reads of
storage: the active buffer is still present and holds the elements (its first `N` elements
are zero, the rest of it and the other pointer are what they were), the ownership flag is
unchanged, and the representation invariant, if it held, still holds. -/
theorem zero_clears (V : HVector D) (hV : V.Backed) :
    V.Zero.N = V.N ∧ V.Zero.RealComplex = V.RealComplex ∧
    (∀ i : Int, 0 ≤ i → i < V.N → (V.Zero.GetEntry i).1 = (0 : cdouble D)) ∧
    V.Zero.Backed ∧ V.Zero.ownsV = V.ownsV ∧
    (V.RealComplex = LHM_REAL → ∃ b : List D, V.DV = some b ∧
      V.Zero.DV = some (List.replicate V.N.toNat 0 ++ b.drop V.N.toNat) ∧
      V.Zero.ZV = V.ZV) ∧
    (¬ V.RealComplex = LHM_REAL → ∃ b : List (cdouble D), V.ZV = some b ∧
      V.Zero.ZV = some (List.replicate V.N.toNat 0 ++ b.drop V.N.toNat) ∧
      V.Zero.DV = V.DV) ∧
    (V.Inv → V.Zero.Inv) := by
  by_cases hr : V.RealComplex = LHM_REAL
  · obtain ⟨b, hb, hlen⟩ := hV.real hr
    have e : V.Zero =
        { V with DV := some (List.replicate V.N.toNat 0 ++ b.drop V.N.toNat) } := by
      rw [Zero, if_pos hr, hb]; rfl
    have hl : (List.replicate V.N.toNat (0 : D) ++ b.drop V.N.toNat).length = b.length := by
      rw [List.length_append, List.length_replicate, List.length_drop]; omega
    refine ⟨?_, ?_, fun i hi0 hin => ?_, ?_, ?_, fun _ => ⟨b, hb, ?_, ?_⟩,
      fun c => absurd hr c, fun hI => ?_⟩
    · simp [Zero, hr]
    · simp [Zero, hr]
    · have h := toNat_lt_of_range hi0 hin
      simp only [Zero, GetEntry, hr, if_true, hb]
      rw [load_memset0 b _ i h]
      rfl
    · rw [e]
      refine ⟨hV.1, ?_⟩
      simp only [hr, if_true, hl]
      exact hlen
    · rw [e]
    · rw [e]
    · rw [e]
    · obtain ⟨b2, hb2, hl2, hz⟩ := Inv_real_buffer hI hr
      have eb : b2 = b := by rw [hb] at hb2; exact (Option.some.inj hb2).symm
      subst eb
      rw [e]
      exact Inv_of_real V _ hr hz (by rw [hl]; exact hl2)
  · obtain ⟨b, hb, hlen⟩ := hV.cplx hr
    have e : V.Zero =
        { V with ZV := some (List.replicate V.N.toNat 0 ++ b.drop V.N.toNat) } := by
      rw [Zero, if_neg hr, hb]; rfl
    have hl : (List.replicate V.N.toNat (0 : cdouble D) ++ b.drop V.N.toNat).length =
        b.length := by
      rw [List.length_append, List.length_replicate, List.length_drop]; omega
    refine ⟨?_, ?_, fun i hi0 hin => ?_, ?_, ?_, fun c => absurd c hr,
      fun _ => ⟨b, hb, ?_, ?_⟩, fun hI => ?_⟩
    · simp [Zero, hr]
    · simp [Zero, hr]
    · have h := toNat_lt_of_range hi0 hin
      simp only [Zero, GetEntry, hr, if_false, hb]
      rw [load_memset0 b _ i h]
    · rw [e]
      refine ⟨hV.1, ?_⟩
      simp only [hr, if_false, hl]
      exact hlen
    · rw [e]
    · rw [e]
    · rw [e]
    · obtain ⟨b2, hb2, hl2, hd⟩ := Inv_cplx_buffer hI hr
      have eb : b2 = b := by rw [hb] at hb2; exact (Option.some.inj hb2).symm
      subst eb
      rw [e]
      exact Inv_of_cplx V _ hr hd (by rw [hl]; exact hl2)

/-- The witness of C9: `[1 + 2i, 3 + 4i]` after `Zero()`, read at index 1; the buffer `ZV` is
still there, holding two zeros. -/
theorem zero_clears_witness :
    sampleComplex.Backed ∧ (sampleComplex.GetEntry 1).1 = ⟨3, 4⟩ ∧
    (sampleComplex.Zero.GetEntry 1).1 = (0 : cdouble Int) ∧
    sampleComplex.Zero.Backed ∧ sampleComplex.Zero.ZV = some [0, 0] :=
  ⟨sampleComplex_backed, by decide,
    (zero_clears sampleComplex sampleComplex_backed).2.2.1 1 (by decide) (by decide),
    (zero_clears sampleComplex sampleComplex_backed).2.2.2.1,
    rfl⟩

end HVector

/-! ## Copy -/

namespace HVector

/-- C10. Copy mismatch safety: for every target `T` and source `S` that differ in length or
in kind, `T.Copy(S)` returns (it does not exit), having written the warning, and the vector
after the call is `T` itself: its length, its kind, its buffers and so every element are
what they were. -/
theorem copy_mismatch_safe {D : Type} (T S : HVector D)
    (h : S.N ≠ T.N ∨ S.RealComplex ≠ T.RealComplex) :
    T.Copy S = Except.ok (T, ["WARNING: vector properties mismatch (copy failed)"]) := by
  rw [Copy, if_pos h]

/-- The witness of C10: copying the COMPLEX `[1 + 2i, 3 + 4i]` into the REAL `[5, 7]`. -/
theorem copy_mismatch_safe_witness :
    (sampleComplex.N ≠ aliasedReal.N ∨ sampleComplex.RealComplex ≠ aliasedReal.RealComplex) ∧
    aliasedReal.Copy sampleComplex =
      Except.ok (aliasedReal, ["WARNING: vector properties mismatch (copy failed)"]) :=
  ⟨Or.inr (by decide), copy_mismatch_safe aliasedReal sampleComplex (Or.inr (by decide))⟩

theorem realOneTwo_backed : realOneTwo.Backed := by
  simp [realOneTwo, Backed, InitHVector, SetEntryD, store, mallocEC]

theorem complexThreeFour_backed : complexThreeFour.Backed := by
  simp [complexThreeFour, Backed, InitHVector, SetEntry, store, mallocEC, LHM_REAL, LHM_COMPLEX]

/-- C11. For every target `T` and source `S` of the same length and the same kind,
`T.Copy(S)` returns without a warning and afterwards `T.GetEntry(i)` is `S.GetEntry(i)` at
every index `0 ≤ i < N`, the length, the kind and the ownership flag of `T` being what they
were. -/
theorem copy_matching {D : Type} [CommRing D] (T S : HVector D) (hT : T.Backed)
    (hS : S.Backed) (hN : S.N = T.N) (hK : S.RealComplex = T.RealComplex) :
    ∃ T1 : HVector D, T.Copy S = Except.ok (T1, []) ∧
      T1.N = T.N ∧ T1.RealComplex = T.RealComplex ∧ T1.ownsV = T.ownsV ∧
      ∀ i : Int, 0 ≤ i → i < T.N → (T1.GetEntry i).1 = (S.GetEntry i).1 := by
  have hm : ¬ (S.N ≠ T.N ∨ S.RealComplex ≠ T.RealComplex) := by
    rw [hN, hK]; simp
  by_cases hr : T.RealComplex = LHM_REAL
  · have hrS : S.RealComplex = LHM_REAL := by rw [hK]; exact hr
    obtain ⟨b, hb, -⟩ := hT.real hr
    obtain ⟨c, hc, hlen⟩ := hS.real hrS
    refine ⟨{ T with DV := memcpy T.DV S.DV T.N.toNat }, ?_, rfl, rfl, rfl, fun i hi0 hin => ?_⟩
    · rw [Copy, if_neg hm, if_pos hr]
    · have h := toNat_lt_of_range hi0 hin
      simp only [GetEntry, hr, hrS, if_true, hb, hc]
      rw [load_memcpy b c _ i h (by rw [← hN]; exact hlen)]
  · have hrS : ¬ S.RealComplex = LHM_REAL := by rw [hK]; exact hr
    obtain ⟨b, hb, -⟩ := hT.cplx hr
    obtain ⟨c, hc, hlen⟩ := hS.cplx hrS
    refine ⟨{ T with ZV := memcpy T.ZV S.ZV T.N.toNat }, ?_, rfl, rfl, rfl, fun i hi0 hin => ?_⟩
    · rw [Copy, if_neg hm, if_neg hr]
    · have h := toNat_lt_of_range hi0 hin
      simp only [GetEntry, hr, hrS, if_false, hb, hc]
      rw [load_memcpy b c _ i h (by rw [← hN]; exact hlen)]

/-- The witness of C11: copying the owning REAL `[1, 2]` into the aliasing REAL `[5, 7]`. -/
theorem copy_matching_witness :
    aliasedReal.Backed ∧ realOneTwo.Backed ∧ realOneTwo.N = aliasedReal.N ∧
    realOneTwo.RealComplex = aliasedReal.RealComplex ∧
    ∃ T1 : HVector Int, aliasedReal.Copy realOneTwo = Except.ok (T1, []) ∧
      T1.N = aliasedReal.N ∧ T1.RealComplex = aliasedReal.RealComplex ∧
      T1.ownsV = aliasedReal.ownsV ∧
      ∀ i : Int, 0 ≤ i → i < aliasedReal.N → (T1.GetEntry i).1 = (realOneTwo.GetEntry i).1 :=
  ⟨aliasedReal_backed, realOneTwo_backed, rfl, rfl,
    copy_matching aliasedReal realOneTwo aliasedReal_backed realOneTwo_backed rfl rfl⟩

end HVector

/-! ## LinSpace and LogSpace -/

section Sequences

open HVector

theorem HVector_eq_with_DV {D : Type} (V : HVector D) (b : List D) (h : V.DV = some b) :
    V = { V with DV := some b } := by
  cases V
  simp only at h
  subst h
  rfl

/-- A loop whose body, on a REAL vector, is `DV[n] = f(DV[n-1])`: the elements it visits
become the iterates of `f` on the element before the first of them. -/
theorem forLoop_recurrence {D : Type} [CommRing D] (f : D → D)
    (body : Int → HVector D → HVector D)
    (hbody : ∀ (n : Int) (W : HVector D), W.RealComplex = LHM_REAL →
      body n W = { W with DV := store W.DV n (f (load W.DV (n - 1))) }) (k : Nat) :
    ∀ (lo : Nat) (V : HVector D) (b : List D), 1 ≤ lo → V.RealComplex = LHM_REAL →
      V.DV = some b → lo + k ≤ b.length →
      ∃ r, forLoop body (lo : Int) k V = { V with DV := some r } ∧ r.length = b.length ∧
        ∀ j : Nat, r.getD j 0 =
          if lo ≤ j ∧ j < lo + k then f^[j - lo + 1] (b.getD (lo - 1) 0) else b.getD j 0 := by
  induction k with
  | zero =>
    intro lo V b _ _ hb _
    refine ⟨b, HVector_eq_with_DV V b hb, rfl, fun j => ?_⟩
    have : ¬ (lo ≤ j ∧ j < lo + 0) := by omega
    rw [if_neg this]
  | succ k ih =>
    intro lo V b hlo hr hb hlen
    have hlt : lo < b.length := by omega
    have e1 : ((lo : Int) - 1).toNat = lo - 1 := by omega
    have e2 : ((lo : Int)).toNat = lo := by omega
    have hstep : body lo V = { V with DV := some (b.set lo (f (b.getD (lo - 1) 0))) } := by
      rw [hbody lo V hr, hb]
      simp only [store, load, Option.map_some', e1, e2]
    obtain ⟨r, h1, h2, h3⟩ := ih (lo + 1)
      { V with DV := some (b.set lo (f (b.getD (lo - 1) 0))) }
      (b.set lo (f (b.getD (lo - 1) 0))) (by omega) hr rfl (by rw [List.length_set]; omega)
    refine ⟨r, ?_, ?_, fun j => ?_⟩
    · have e : ((lo : Int) + 1) = ((lo + 1 : Nat) : Int) := by push_cast; rfl
      simp only [forLoop]
      rw [hstep, e, h1]
    · rw [h2, List.length_set]
    · rw [h3 j]
      have e3 : lo + 1 - 1 = lo := by omega
      rw [e3, getD_set_eq_ite b lo lo _ hlt, if_pos rfl, getD_set_eq_ite b lo j _ hlt]
      by_cases e : j = lo
      · subst e
        have c1 : ¬ (j + 1 ≤ j ∧ j < j + 1 + k) := by omega
        have c2 : j ≤ j ∧ j < j + (k + 1) := by omega
        have e4 : j - j + 1 = 1 := by omega
        rw [if_neg c1, if_pos c2, if_pos rfl, e4]
        rfl
      · by_cases c : lo + 1 ≤ j ∧ j < lo + 1 + k
        · have c2 : lo ≤ j ∧ j < lo + (k + 1) := by omega
          have e4 : j - lo + 1 = (j - (lo + 1) + 1) + 1 := by omega
          rw [if_pos c, if_pos c2, e4]
          exact (Function.iterate_succ_apply f _ _).symm
        · have c2 : ¬ (lo ≤ j ∧ j < lo + (k + 1)) := by omega
          rw [if_neg c, if_neg c2, if_neg e]

theorem iterate_add_step {D : Type} [CommRing D] (d m : D) (j : Nat) :
    (fun x : D => x + d)^[j] m = m + (j : D) * d := by
  induction j with
  | zero => simp
  | succ j ih =>
    rw [Function.iterate_succ_apply', ih]
    push_cast
    ring

theorem iterate_mul_step {D : Type} [CommRing D] (q m : D) (j : Nat) :
    (fun x : D => x * q)^[j] m = m * q ^ j := by
  induction j with
  | zero => simp
  | succ j ih =>
    rw [Function.iterate_succ_apply', ih]
    ring

/-- The vector of `LinSpace` and of `LogSpace` before the loop: zero-filled, REAL, of length
`Num`, with `Min` at index 0. -/
theorem first_entry_set {D : Type} [CommRing D] (Min : D) (Num : Int) :
    (mk_sized Num LHM_REAL (none : Option (List D))).SetEntryD 0 Min =
      { N := Num, RealComplex := LHM_REAL, DV := some ((List.replicate Num.toNat 0).set 0 Min),
        ZV := none, ErrMsg := none, ownsV := true } := by
  simp [mk_sized, InitHVector, SetEntryD, store, mallocEC]

/-- What `LinSpace` returns for `Num ≥ 1`: a REAL vector that owns a buffer of `Num`
elements, the element `j` being `Min + j * Delta`; one division was evaluated. -/
theorem LinSpace_spec {D : Type} [Field D] (Min Max : D) (Num : Int) (h : 1 ≤ Num) :
    ∃ r : List D,
      LinSpace Min Max Num =
        Except.ok
          ({ N := Num, RealComplex := LHM_REAL, DV := some r, ZV := none, ErrMsg := none,
             ownsV := true }, [(Max - Min, (Num : D) - 1)]) ∧
      r.length = Num.toNat ∧
      ∀ j : Nat, j < Num.toNat → r.getD j 0 = Min + (j : D) * ((Max - Min) / ((Num : D) - 1)) := by
  have hlen : ((List.replicate Num.toNat (0 : D)).set 0 Min).length = Num.toNat := by
    rw [List.length_set, List.length_replicate]
  have hpos : 0 < (List.replicate Num.toNat (0 : D)).length := by
    rw [List.length_replicate]; omega
  obtain ⟨r, h1, h2, h3⟩ := forLoop_recurrence
    (fun x : D => x + (Max - Min) / ((Num : D) - 1))
    (fun n W => (W.GetEntryD (n - 1)).2.SetEntryD n
      ((W.GetEntryD (n - 1)).1 + (Max - Min) / ((Num : D) - 1)))
    (fun n W hW => by simp [GetEntryD, SetEntryD, hW])
    (Num - 1).toNat 1
    { N := Num, RealComplex := LHM_REAL, DV := some ((List.replicate Num.toNat 0).set 0 Min),
      ZV := none, ErrMsg := none, ownsV := true }
    ((List.replicate Num.toNat 0).set 0 Min) (le_refl 1) rfl rfl (by rw [hlen]; omega)
  refine ⟨r, ?_, by rw [h2, hlen], fun j hj => ?_⟩
  · have hn : ¬ Num < 1 := by omega
    have e : ((1 : Nat) : Int) = 1 := rfl
    rw [e] at h1
    simp only [LinSpace, if_neg hn, first_entry_set]
    rw [h1]
  · rw [h3 j]
    have hz : ((List.replicate Num.toNat (0 : D)).set 0 Min).getD 0 0 = Min := by
      rw [getD_set_eq_ite _ 0 0 _ hpos, if_pos rfl]
    by_cases c : 1 ≤ j ∧ j < 1 + (Num - 1).toNat
    · have e : j - 1 + 1 = j := by omega
      rw [if_pos c, e, hz, iterate_add_step]
    · have e : j = 0 := by omega
      subst e
      rw [if_neg c, hz]
      simp

/-- What `LogSpace` returns for `Num ≥ 1`: a REAL vector that owns a buffer of `Num`
elements, the element `j` being `Min * Mult ^ j`; two divisions were evaluated. -/
theorem LogSpace_spec {D : Type} [Field D] (exp log : D → D) (Min Max : D) (Num : Int)
    (h : 1 ≤ Num) :
    ∃ r : List D,
      LogSpace exp log Min Max Num =
        Except.ok
          ({ N := Num, RealComplex := LHM_REAL, DV := some r, ZV := none, ErrMsg := none,
             ownsV := true },
            [(Max, Min), (log (Max / Min), (((Num - 1 : Int) : D)))]) ∧
      r.length = Num.toNat ∧
      ∀ j : Nat, j < Num.toNat →
        r.getD j 0 = Min * (exp (log (Max / Min) / (((Num - 1 : Int) : D)))) ^ j := by
  have hlen : ((List.replicate Num.toNat (0 : D)).set 0 Min).length = Num.toNat := by
    rw [List.length_set, List.length_replicate]
  have hpos : 0 < (List.replicate Num.toNat (0 : D)).length := by
    rw [List.length_replicate]; omega
  obtain ⟨r, h1, h2, h3⟩ := forLoop_recurrence
    (fun x : D => x * exp (log (Max / Min) / (((Num - 1 : Int) : D))))
    (fun n W => (W.GetEntry (n - 1)).2.SetEntry n
      ((W.GetEntry (n - 1)).1.mulD (exp (log (Max / Min) / (((Num - 1 : Int) : D))))))
    (fun n W hW => by
      simp [GetEntry, SetEntry, hW, cdouble.mulD, cdouble.ofDouble, cdouble.real])
    (Num - 1).toNat 1
    { N := Num, RealComplex := LHM_REAL, DV := some ((List.replicate Num.toNat 0).set 0 Min),
      ZV := none, ErrMsg := none, ownsV := true }
    ((List.replicate Num.toNat 0).set 0 Min) (le_refl 1) rfl rfl (by rw [hlen]; omega)
  refine ⟨r, ?_, by rw [h2, hlen], fun j hj => ?_⟩
  · have hn : ¬ Num < 1 := by omega
    have e : ((1 : Nat) : Int) = 1 := rfl
    rw [e] at h1
    simp only [LogSpace, if_neg hn, first_entry_set]
    rw [h1]
  · rw [h3 j]
    have hz : ((List.replicate Num.toNat (0 : D)).set 0 Min).getD 0 0 = Min := by
      rw [getD_set_eq_ite _ 0 0 _ hpos, if_pos rfl]
    by_cases c : 1 ≤ j ∧ j < 1 + (Num - 1).toNat
    · have e : j - 1 + 1 = j := by omega
      rw [if_pos c, e, hz, iterate_mul_step]
    · have e : j = 0 := by omega
      subst e
      rw [if_neg c, hz]
      simp

theorem cast_toNat_of_nonneg {D : Type} [Field D] (i : Int) (h : 0 ≤ i) :
    ((i.toNat : Nat) : D) = (i : D) := by
  have e : ((i.toNat : Nat) : Int) = i := Int.toNat_of_nonneg h
  calc ((i.toNat : Nat) : D) = (((i.toNat : Nat) : Int) : D) := (Int.cast_natCast _).symm
    _ = (i : D) := by rw [e]

/-- C12. For every `Min`, `Max` and every `Num ≥ 2`, `LinSpace(Min, Max, Num)` returns a REAL
vector of length `Num` whose element `i` is `Min + i * (Max - Min) / (Num - 1)` at every
index `0 ≤ i < Num` (exact arithmetic in a field of characteristic zero); element 0 is `Min`
and element `Num - 1` is `Max`. -/
theorem linspace_elements {D : Type} [Field D] [CharZero D] (Min Max : D) (Num : Int)
    (h : 2 ≤ Num) :
    ∃ (V : HVector D) (divs : List (D × D)), LinSpace Min Max Num = Except.ok (V, divs) ∧
      V.N = Num ∧ V.RealComplex = LHM_REAL ∧
      (∀ i : Int, 0 ≤ i → i < Num →
        (V.GetEntryD i).1 = Min + (i : D) * (Max - Min) / ((Num : D) - 1)) ∧
      (V.GetEntryD 0).1 = Min ∧ (V.GetEntryD (Num - 1)).1 = Max := by
  obtain ⟨r, h1, _, h3⟩ := LinSpace_spec Min Max Num (by omega)
  have hel : ∀ i : Int, 0 ≤ i → i < Num →
      ((⟨Num, LHM_REAL, some r, none, none, true⟩ : HVector D).GetEntryD i).1 =
        Min + (i : D) * (Max - Min) / ((Num : D) - 1) := by
    intro i hi0 hin
    simp only [GetEntryD, if_true, load]
    rw [h3 i.toNat (by omega), cast_toNat_of_nonneg i hi0, mul_div_assoc]
  have hne : (Num : D) - 1 ≠ 0 := by
    have e : (Num : D) - 1 = ((Num - 1 : Int) : D) := by push_cast; rfl
    rw [e]
    exact Int.cast_ne_zero.mpr (by omega)
  refine ⟨_, _, h1, rfl, rfl, hel, ?_, ?_⟩
  · rw [hel 0 (le_refl 0) (by omega)]
    simp
  · rw [hel (Num - 1) (by omega) (by omega)]
    push_cast
    field_simp

/-- The witness of C12: `LinSpace(0, 10, 5)` over the rationals is `[0, 5/2, 5, 15/2, 10]`. -/
theorem linspace_elements_witness :
    (2 : Int) ≤ 5 ∧
    ∃ (V : HVector ℚ) (divs : List (ℚ × ℚ)), LinSpace (0 : ℚ) 10 5 = Except.ok (V, divs) ∧
      V.N = 5 ∧ V.RealComplex = LHM_REAL ∧
      (V.GetEntryD 0).1 = 0 ∧ (V.GetEntryD 1).1 = 5 / 2 ∧ (V.GetEntryD 2).1 = 5 ∧
      (V.GetEntryD 3).1 = 15 / 2 ∧ (V.GetEntryD 4).1 = 10 := by
  obtain ⟨V, divs, h1, hN, hR, hel, _, _⟩ := linspace_elements (0 : ℚ) 10 5 (by decide)
  refine ⟨by decide, V, divs, h1, hN, hR, ?_, ?_, ?_, ?_, ?_⟩
  · rw [hel 0 (by decide) (by decide)]; norm_num
  · rw [hel 1 (by decide) (by decide)]; norm_num
  · rw [hel 2 (by decide) (by decide)]; norm_num
  · rw [hel 3 (by decide) (by decide)]; norm_num
  · rw [hel 4 (by decide) (by decide)]; norm_num

theorem exp_log_root (x : ℝ) (hx : 0 < x) (m : Int) :
    Real.exp (Real.log x / ((m : Int) : ℝ)) = x ^ ((1 : ℝ) / (m : ℝ)) := by
  rw [Real.rpow_def_of_pos hx, mul_one_div]

/-- C13. For every `Min ≠ 0`, `Max` with `Max / Min > 0` and every `Num ≥ 2`,
`LogSpace(Min, Max, Num)` over the real numbers returns a REAL vector of length `Num` whose
element `i` is `Min * r ^ i` with `r = (Max / Min) ^ (1 / (Num - 1))` at every index
`0 ≤ i < Num`; element 0 is `Min` and element `Num - 1` is `Max`. -/
theorem logspace_elements (Min Max : ℝ) (Num : Int) (hmin : Min ≠ 0) (hq : 0 < Max / Min)
    (h : 2 ≤ Num) :
    ∃ (V : HVector ℝ) (divs : List (ℝ × ℝ)),
      LogSpace Real.exp Real.log Min Max Num = Except.ok (V, divs) ∧
      V.N = Num ∧ V.RealComplex = LHM_REAL ∧
      (∀ i : Int, 0 ≤ i → i < Num →
        (V.GetEntryD i).1 = Min * ((Max / Min) ^ ((1 : ℝ) / ((Num : ℝ) - 1))) ^ i) ∧
      (V.GetEntryD 0).1 = Min ∧ (V.GetEntryD (Num - 1)).1 = Max := by
  obtain ⟨r, h1, _, h3⟩ := LogSpace_spec Real.exp Real.log Min Max Num (by omega)
  have hcast : (((Num - 1 : Int) : Int) : ℝ) = (Num : ℝ) - 1 := by push_cast; rfl
  have hroot : Real.exp (Real.log (Max / Min) / (((Num - 1 : Int) : ℝ))) =
      (Max / Min) ^ ((1 : ℝ) / ((Num : ℝ) - 1)) := by
    rw [exp_log_root (Max / Min) hq (Num - 1), hcast]
  have hel : ∀ i : Int, 0 ≤ i → i < Num →
      ((⟨Num, LHM_REAL, some r, none, none, true⟩ : HVector ℝ).GetEntryD i).1 =
        Min * ((Max / Min) ^ ((1 : ℝ) / ((Num : ℝ) - 1))) ^ i := by
    intro i hi0 hin
    simp only [GetEntryD, if_true, load]
    rw [h3 i.toNat (by omega), hroot]
    have e : (i.toNat : Int) = i := Int.toNat_of_nonneg hi0
    rw [← zpow_natCast, e]
  refine ⟨_, _, h1, rfl, rfl, hel, ?_, ?_⟩
  · rw [hel 0 (le_refl 0) (by omega)]
    simp
  · rw [hel (Num - 1) (by omega) (by omega), ← hroot]
    have e : ((Num - 1).toNat : Int) = Num - 1 := Int.toNat_of_nonneg (by omega)
    have hne : (((Num - 1).toNat : Nat) : ℝ) ≠ 0 := by
      have : 0 < (Num - 1).toNat := by omega
      exact Nat.cast_ne_zero.mpr (by omega)
    have hc : (((Num - 1 : Int) : Int) : ℝ) = (((Num - 1).toNat : Nat) : ℝ) := by
      rw [← e]; simp
    rw [← e, zpow_natCast, e, hc, ← Real.exp_nat_mul, mul_div_cancel₀ _ hne,
      Real.exp_log hq, mul_div_cancel₀ _ hmin]

/-- The witness of C13: `LogSpace(1, 100, 3)` over the real numbers is `[1, 10, 100]`. -/
theorem logspace_elements_witness :
    (1 : ℝ) ≠ 0 ∧ (0 : ℝ) < 100 / 1 ∧ (2 : Int) ≤ 3 ∧
    ∃ (V : HVector ℝ) (divs : List (ℝ × ℝ)),
      LogSpace Real.exp Real.log 1 100 3 = Except.ok (V, divs) ∧
      V.N = 3 ∧ V.RealComplex = LHM_REAL ∧
      (V.GetEntryD 0).1 = 1 ∧ (V.GetEntryD 1).1 = 10 ∧ (V.GetEntryD 2).1 = 100 := by
  have hr : ((100 : ℝ) / 1) ^ ((1 : ℝ) / (((3 : Int) : ℝ) - 1)) = 10 := by
    have e1 : (100 : ℝ) / 1 = (10 : ℝ) ^ (2 : ℝ) := by norm_num
    have e2 : (1 : ℝ) / (((3 : Int) : ℝ) - 1) = 1 / 2 := by norm_num
    rw [e1, e2, ← Real.rpow_mul (by norm_num : (0 : ℝ) ≤ 10)]
    norm_num
  obtain ⟨V, divs, h1, hN, hR, hel, h0, h2⟩ :=
    logspace_elements 1 100 3 one_ne_zero (by norm_num) (by decide)
  refine ⟨one_ne_zero, by norm_num, by decide, V, divs, h1, hN, hR, h0, ?_, h2⟩
  rw [hel 1 (by decide) (by decide), hr]
  norm_num

/-- C14. `LinSpace(Min, Max, Num)` and `LogSpace(Min, Max, Num)` end in `ErrExit`, returning
no vector, for every `Num < 1`; for every `Num ≥ 1` they return a vector of length `Num`,
whose buffer holds `Num` elements. -/
theorem sequence_count_check {D : Type} [Field D] (exp log : D → D) (Min Max : D) (Num : Int) :
    (Num < 1 →
      (∃ msg, LinSpace Min Max Num = Except.error msg) ∧
      (∃ msg, LogSpace exp log Min Max Num = Except.error msg)) ∧
    (1 ≤ Num →
      (∃ (V : HVector D) (divs : List (D × D)) (b : List D),
        LinSpace Min Max Num = Except.ok (V, divs) ∧ V.N = Num ∧
        V.DV = some b ∧ (b.length : Int) = Num) ∧
      (∃ (V : HVector D) (divs : List (D × D)) (b : List D),
        LogSpace exp log Min Max Num = Except.ok (V, divs) ∧ V.N = Num ∧
        V.DV = some b ∧ (b.length : Int) = Num)) := by
  refine ⟨fun hlt => ⟨?_, ?_⟩, fun hge => ⟨?_, ?_⟩⟩
  · exact ⟨"LinSpace: invalid N value (" ++ toString Num ++ ")\n", by
      rw [LinSpace, if_pos hlt]; rfl⟩
  · exact ⟨"LogSpace: invalid N value (" ++ toString Num ++ ")\n", by
      rw [LogSpace, if_pos hlt]; rfl⟩
  · obtain ⟨r, h1, h2, _⟩ := LinSpace_spec Min Max Num hge
    exact ⟨_, _, r, h1, rfl, rfl, by rw [h2]; omega⟩
  · obtain ⟨r, h1, h2, _⟩ := LogSpace_spec exp log Min Max Num hge
    exact ⟨_, _, r, h1, rfl, rfl, by rw [h2]; omega⟩

/-- The witness of C14: `Num = 0` is fatal and `Num = 1` returns a vector of length 1. -/
theorem sequence_count_check_witness :
    (∃ msg, LinSpace (3 : ℚ) 7 0 = Except.error msg) ∧
    (∃ (V : HVector ℚ) (divs : List (ℚ × ℚ)) (b : List ℚ),
      LinSpace (3 : ℚ) 7 1 = Except.ok (V, divs) ∧ V.N = 1 ∧
      V.DV = some b ∧ (b.length : Int) = 1) :=
  ⟨((sequence_count_check (fun x : ℚ => x) (fun x : ℚ => x) 3 7 0).1 (by decide)).1,
    ((sequence_count_check (fun x : ℚ => x) (fun x : ℚ => x) 3 7 1).2 (by decide)).1⟩

/-- The counterexample to C15 as stated: `LinSpace(3, 7, 1)` evaluates the division
`(7 - 3) / (1 - 1)`, and `LogSpace(3, 7, 1)` evaluates `7 / 3` and then
`log(7 / 3) / (1 - 1)`: in both the division by `Num - 1 = 0` takes place. -/
theorem degenerate_count_counterexample :
    (∃ V : HVector ℚ, LinSpace (3 : ℚ) 7 1 = Except.ok (V, [(4, 0)])) ∧
    (∃ V : HVector ℝ, LogSpace Real.exp Real.log 3 7 1 =
      Except.ok (V, [(7, 3), (Real.log (7 / 3), 0)])) := by
  constructor
  · obtain ⟨r, h1, _, _⟩ := LinSpace_spec (3 : ℚ) 7 1 (by decide)
    refine ⟨⟨1, LHM_REAL, some r, none, none, true⟩, ?_⟩
    rw [h1]
    norm_num
  · obtain ⟨r, h1, _, _⟩ := LogSpace_spec Real.exp Real.log 3 7 1 (by decide)
    refine ⟨⟨1, LHM_REAL, some r, none, none, true⟩, ?_⟩
    rw [h1]
    norm_num

/-- C15, amended. For `Num = 1` and every `Min`, `Max`, `LinSpace(Min, Max, 1)` and
`LogSpace(Min, Max, 1)` each return a REAL vector of length 1, over a buffer of one element,
whose element is `Min`; before the loop, which runs no iteration, each evaluates its division
by `Num - 1 = 0`. -/
theorem degenerate_count {D : Type} [Field D] (exp log : D → D) (Min Max : D) :
    (∃ V : HVector D, LinSpace Min Max 1 = Except.ok (V, [(Max - Min, 0)]) ∧
      V.N = 1 ∧ V.RealComplex = LHM_REAL ∧ V.DV = some [Min] ∧ (V.GetEntryD 0).1 = Min ∧
      (V.GetEntry 0).1 = cdouble.ofDouble Min) ∧
    (∃ V : HVector D,
      LogSpace exp log Min Max 1 = Except.ok (V, [(Max, Min), (log (Max / Min), 0)]) ∧
      V.N = 1 ∧ V.RealComplex = LHM_REAL ∧ V.DV = some [Min] ∧ (V.GetEntryD 0).1 = Min ∧
      (V.GetEntry 0).1 = cdouble.ofDouble Min) := by
  constructor
  · refine ⟨⟨1, LHM_REAL, some [Min], none, none, true⟩, ?_, rfl, rfl, rfl, rfl, rfl⟩
    simp [LinSpace, first_entry_set, forLoop]
  · refine ⟨⟨1, LHM_REAL, some [Min], none, none, true⟩, ?_, rfl, rfl, rfl, rfl, rfl⟩
    simp [LogSpace, first_entry_set, forLoop]

end Sequences

/-! ## Concat -/

section Concatenation

open HVector

theorem SetEntry_keeps {D : Type} (V : HVector D) (hV : V.Backed) (n : Int) (z : cdouble D) :
    (V.SetEntry n z).Backed ∧ (V.SetEntry n z).N = V.N ∧
    (V.SetEntry n z).RealComplex = V.RealComplex ∧ (V.SetEntry n z).ownsV = V.ownsV := by
  by_cases hr : V.RealComplex = LHM_REAL
  · obtain ⟨b, hb, hlen⟩ := hV.real hr
    have e : V.SetEntry n z = { V with DV := some (b.set n.toNat z.real) } := by
      rw [SetEntry, if_pos hr, hb]; rfl
    rw [e]
    refine ⟨⟨hV.1, ?_⟩, rfl, rfl, rfl⟩
    simp only [hr, if_true, List.length_set]
    exact hlen
  · obtain ⟨b, hb, hlen⟩ := hV.cplx hr
    have e : V.SetEntry n z = { V with ZV := some (b.set n.toNat z) } := by
      rw [SetEntry, if_neg hr, hb]; rfl
    rw [e]
    refine ⟨⟨hV.1, ?_⟩, rfl, rfl, rfl⟩
    simp only [hr, if_false, List.length_set]
    exact hlen

variable {D : Type} [CommRing D]

theorem GetEntry_SetEntry (V : HVector D) (hV : V.Backed) (n j : Int) (hn0 : 0 ≤ n)
    (hn : n < V.N) (hj0 : 0 ≤ j) (z : cdouble D) :
    ((V.SetEntry n z).GetEntry j).1 =
      if j = n then (if V.RealComplex = LHM_REAL then cdouble.ofDouble z.real else z)
      else (V.GetEntry j).1 := by
  by_cases hr : V.RealComplex = LHM_REAL
  · obtain ⟨b, hb, hlen⟩ := hV.real hr
    have h : n.toNat < b.length := lt_of_lt_of_le (toNat_lt_of_range hn0 hn) hlen
    by_cases e : j = n
    · subst e
      simp [SetEntry, GetEntry, hr, hb, load_store_self b j _ h]
    · have hne := toNat_ne_of_ne hn0 hj0 e
      simp [SetEntry, GetEntry, hr, e, load_store_other _ n j _ hne]
  · obtain ⟨b, hb, hlen⟩ := hV.cplx hr
    have h : n.toNat < b.length := lt_of_lt_of_le (toNat_lt_of_range hn0 hn) hlen
    by_cases e : j = n
    · subst e
      simp [SetEntry, GetEntry, hr, hb, load_store_self b j _ h]
    · have hne := toNat_ne_of_ne hn0 hj0 e
      simp [SetEntry, GetEntry, hr, e, load_store_other _ n j _ hne]

/-- One loop of `Concat`: `k` values `g(lo), g(lo + 1), ...` are written with `SetEntry` at
the positions `n, n + 1, ...` of `V`. -/
theorem forLoop_fill (g : Int → cdouble D) (k : Nat) :
    ∀ (lo : Int) (n : Nat) (V : HVector D), V.Backed → (n : Int) + k ≤ V.N →
      ∃ W : HVector D,
        forLoop (fun n1 (s : Int × HVector D) => (s.1 + 1, s.2.SetEntry s.1 (g n1))) lo k
          ((n : Int), V) = (((n + k : Nat) : Int), W) ∧
        W.Backed ∧ W.N = V.N ∧ W.RealComplex = V.RealComplex ∧ W.ownsV = V.ownsV ∧
        ∀ j : Int, 0 ≤ j → (W.GetEntry j).1 =
          if (n : Int) ≤ j ∧ j < (n : Int) + k then
            (if V.RealComplex = LHM_REAL then cdouble.ofDouble (g (lo + (j - n))).real
              else g (lo + (j - n)))
          else (V.GetEntry j).1 := by
  induction k with
  | zero =>
    intro lo n V hV _
    refine ⟨V, rfl, hV, rfl, rfl, rfl, fun j _ => ?_⟩
    have : ¬ ((n : Int) ≤ j ∧ j < (n : Int) + (0 : Nat)) := by omega
    rw [if_neg this]
  | succ k ih =>
    intro lo n V hV hle
    obtain ⟨hB1, hN1, hR1, hO1⟩ := SetEntry_keeps V hV n (g lo)
    obtain ⟨W, h1, hB, hN, hR, hO, hel⟩ := ih (lo + 1) (n + 1) (V.SetEntry n (g lo)) hB1
      (by rw [hN1]; push_cast at hle ⊢; omega)
    refine ⟨W, ?_, hB, by rw [hN, hN1], by rw [hR, hR1], by rw [hO, hO1], fun j hj0 => ?_⟩
    · have e : ((n : Int) + 1) = ((n + 1 : Nat) : Int) := by push_cast; rfl
      have e2 : n + 1 + k = n + (k + 1) := by omega
      simp only [forLoop]
      rw [e, h1, e2]
    · rw [hel j hj0, hR1,
        GetEntry_SetEntry V hV n j (by omega) (by push_cast at hle; omega) hj0 (g lo)]
      by_cases e : j = n
      · subst e
        have c1 : ¬ (((n + 1 : Nat) : Int) ≤ (n : Int) ∧ (n : Int) < ((n + 1 : Nat) : Int) + k) := by
          push_cast; omega
        have c2 : (n : Int) ≤ (n : Int) ∧ (n : Int) < (n : Int) + ((k + 1 : Nat) : Int) := by
          push_cast; omega
        have e3 : lo + ((n : Int) - n) = lo := by omega
        rw [if_neg c1, if_pos c2, if_pos rfl, e3]
      · by_cases c : ((n + 1 : Nat) : Int) ≤ j ∧ j < ((n + 1 : Nat) : Int) + k
        · have c2 : (n : Int) ≤ j ∧ j < (n : Int) + ((k + 1 : Nat) : Int) := by
            push_cast at c ⊢; omega
          have e3 : lo + 1 + (j - ((n + 1 : Nat) : Int)) = lo + (j - n) := by
            push_cast; omega
          rw [if_pos c, if_pos c2, e3]
        · have c2 : ¬ ((n : Int) ≤ j ∧ j < (n : Int) + ((k + 1 : Nat) : Int)) := by
            push_cast at c ⊢; omega
          rw [if_neg c, if_neg c2, if_neg e]

theorem conv_GetEntry (a : HVector D) (k : Int) (h : k = LHM_REAL → a.RealComplex = LHM_REAL)
    (j : Int) :
    (if k = LHM_REAL then cdouble.ofDouble ((a.GetEntry j).1).real else (a.GetEntry j).1) =
      (a.GetEntry j).1 := by
  by_cases hk : k = LHM_REAL
  · rw [if_pos hk]
    simp [GetEntry, h hk, cdouble.ofDouble, cdouble.real]
  · rw [if_neg hk]

/-- The copy constructor on a vector whose active buffer holds its elements: the copy owns
a buffer of exactly `N` elements and shows the elements of the original. -/
theorem mk_copy_spec (V : HVector D) (hV : V.Backed) :
    (mk_copy V).Backed ∧ (mk_copy V).Inv ∧ (mk_copy V).N = V.N ∧
    (mk_copy V).RealComplex = V.RealComplex ∧ (mk_copy V).ownsV = true ∧
    ∀ i : Int, 0 ≤ i → i < V.N → ((mk_copy V).GetEntry i).1 = (V.GetEntry i).1 := by
  have hN : ((V.N.toNat : Nat) : Int) = V.N := Int.toNat_of_nonneg hV.1
  by_cases hr : V.RealComplex = LHM_REAL
  · obtain ⟨b, hb, hlen⟩ := hV.real hr
    have e : mk_copy V =
        ⟨V.N, V.RealComplex, some (b.take V.N.toNat), none, none, true⟩ := by
      simp [mk_copy, InitHVector, hr, hb, memcpy, mallocEC]
    have hl : (b.take V.N.toNat).length = V.N.toNat := by
      rw [List.length_take]; omega
    rw [e]
    refine ⟨⟨hV.1, ?_⟩, ?_, rfl, rfl, rfl, fun i hi0 hin => ?_⟩
    · simp only [hr, if_true, hl, le_refl]
    · simp only [HVector.Inv, hr, if_true, hl, hN, Option.isNone_none, and_self]
    · have h := toNat_lt_of_range hi0 hin
      simp only [GetEntry, hr, if_true, hb, load, getD_take_of_lt b _ _ h]
  · obtain ⟨b, hb, hlen⟩ := hV.cplx hr
    have e : mk_copy V =
        ⟨V.N, V.RealComplex, none, some (b.take V.N.toNat), none, true⟩ := by
      simp [mk_copy, InitHVector, hr, hb, memcpy, mallocEC]
    have hl : (b.take V.N.toNat).length = V.N.toNat := by
      rw [List.length_take]; omega
    rw [e]
    refine ⟨⟨hV.1, ?_⟩, ?_, rfl, rfl, rfl, fun i hi0 hin => ?_⟩
    · simp only [hr, if_false, hl, le_refl]
    · simp only [HVector.Inv, hr, if_false, hl, hN, Option.isNone_none, and_self]
    · have h := toNat_lt_of_range hi0 hin
      simp only [GetEntry, hr, if_false, hb, load, getD_take_of_lt b _ _ h]

theorem InitHVector_owned_backed (n k : Int) (hn : 0 ≤ n) :
    (InitHVector n k (none : Option (List D))).Backed := by
  by_cases hk : k = LHM_REAL
  · simp [InitHVector, Backed, hk, hn, mallocEC]
  · simp [InitHVector, Backed, hk, hn, mallocEC]

/-- What `Concat` returns for two vectors whose active buffers hold their elements. -/
theorem Concat_spec (a b : HVector D) (ha : a.Backed) (hb : b.Backed) :
    ∃ V : HVector D, Concat (some a) (some b) = some V ∧ V.Backed ∧ V.N = a.N + b.N ∧
      V.RealComplex =
        (if a.RealComplex = LHM_REAL ∧ b.RealComplex = LHM_REAL then LHM_REAL
          else LHM_COMPLEX) ∧
      V.ownsV = true ∧
      ∀ i : Int, 0 ≤ i → i < a.N + b.N →
        (V.GetEntry i).1 = if i < a.N then (a.GetEntry i).1 else (b.GetEntry (i - a.N)).1 := by
  have ha0 := ha.1
  have hb0 := hb.1
  have hkind : ∀ k : Int,
      (k = if a.RealComplex = LHM_REAL ∧ b.RealComplex = LHM_REAL then LHM_REAL
        else LHM_COMPLEX) → k = LHM_REAL →
        a.RealComplex = LHM_REAL ∧ b.RealComplex = LHM_REAL := by
    intro k hk hk2
    by_cases c : a.RealComplex = LHM_REAL ∧ b.RealComplex = LHM_REAL
    · exact c
    · rw [if_neg c] at hk
      rw [hk] at hk2
      exact absurd hk2 LHM_COMPLEX_ne_REAL
  have hV0 := InitHVector_owned_backed (D := D) (a.N + b.N)
    (if a.RealComplex = LHM_REAL ∧ b.RealComplex = LHM_REAL then LHM_REAL else LHM_COMPLEX)
    (by omega)
  have hV0N : (InitHVector (a.N + b.N)
      (if a.RealComplex = LHM_REAL ∧ b.RealComplex = LHM_REAL then LHM_REAL else LHM_COMPLEX)
      (none : Option (List D))).N = a.N + b.N := by
    unfold InitHVector; split <;> rfl
  have hV0R : (InitHVector (a.N + b.N)
      (if a.RealComplex = LHM_REAL ∧ b.RealComplex = LHM_REAL then LHM_REAL else LHM_COMPLEX)
      (none : Option (List D))).RealComplex =
      (if a.RealComplex = LHM_REAL ∧ b.RealComplex = LHM_REAL then LHM_REAL
        else LHM_COMPLEX) := by
    unfold InitHVector; split <;> rfl
  have hV0O : (InitHVector (a.N + b.N)
      (if a.RealComplex = LHM_REAL ∧ b.RealComplex = LHM_REAL then LHM_REAL else LHM_COMPLEX)
      (none : Option (List D))).ownsV = true := by
    unfold InitHVector; split <;> rfl
  obtain ⟨W1, h1, hB1, hN1, hR1, hO1, hel1⟩ :=
    forLoop_fill (fun n1 => (a.GetEntry n1).1) a.N.toNat 0 0 _ hV0
      (by rw [hV0N]; push_cast; omega)
  obtain ⟨W2, h2, hB2, hN2, hR2, hO2, hel2⟩ :=
    forLoop_fill (fun n2 => (b.GetEntry n2).1) b.N.toNat 0 (0 + a.N.toNat) W1 hB1
      (by rw [hN1, hV0N]; push_cast; omega)
  refine ⟨W2, ?_, hB2, by rw [hN2, hN1, hV0N], by rw [hR2, hR1, hV0R],
    by rw [hO2, hO1, hV0O], fun i hi0 hin => ?_⟩
  · have e0 : ((0 : Nat) : Int) = 0 := rfl
    rw [e0] at h1
    simp only [Concat, mk_sized]
    rw [h1, h2]
  · have hA : ((a.N.toNat : Nat) : Int) = a.N := Int.toNat_of_nonneg ha0
    have hBn : ((b.N.toNat : Nat) : Int) = b.N := Int.toNat_of_nonneg hb0
    have hW1R := hR1.trans hV0R
    rw [hel2 i hi0, hel1 i hi0]
    by_cases c : i < a.N
    · have c1 : ¬ (((0 + a.N.toNat : Nat) : Int) ≤ i ∧
          i < ((0 + a.N.toNat : Nat) : Int) + (b.N.toNat : Nat)) := by
        push_cast; omega
      have c2 : ((0 : Nat) : Int) ≤ i ∧ i < ((0 : Nat) : Int) + (a.N.toNat : Nat) := by
        push_cast; omega
      have e3 : (0 : Int) + (i - ((0 : Nat) : Int)) = i := by push_cast; omega
      rw [if_neg c1, if_pos c2, if_pos c, e3]
      exact conv_GetEntry a _ (fun hk => (hkind _ hV0R hk).1) i
    · have c1 : ((0 + a.N.toNat : Nat) : Int) ≤ i ∧
          i < ((0 + a.N.toNat : Nat) : Int) + (b.N.toNat : Nat) := by
        push_cast; omega
      have e3 : (0 : Int) + (i - ((0 + a.N.toNat : Nat) : Int)) = i - a.N := by
        push_cast; omega
      rw [if_pos c1, if_neg c, e3]
      exact conv_GetEntry b _ (fun hk => (hkind _ hW1R hk).2) (i - a.N)

/-- C16. For all present vectors `a` and `b`, `Concat(a, b)` returns a vector `V` of length
`a.N + b.N`, of kind REAL if `a` and `b` are both REAL and COMPLEX otherwise, with
`V.GetEntry(i) = a.GetEntry(i)` at every `0 ≤ i < a.N` and
`V.GetEntry(a.N + j) = b.GetEntry(j)` at every `0 ≤ j < b.N`. -/
theorem concat_both_present (a b : HVector D) (ha : a.Backed) (hb : b.Backed) :
    ∃ V : HVector D, Concat (some a) (some b) = some V ∧ V.N = a.N + b.N ∧
      (a.RealComplex = LHM_REAL ∧ b.RealComplex = LHM_REAL → V.RealComplex = LHM_REAL) ∧
      (¬ (a.RealComplex = LHM_REAL ∧ b.RealComplex = LHM_REAL) →
        V.RealComplex = LHM_COMPLEX) ∧
      (∀ i : Int, 0 ≤ i → i < a.N → (V.GetEntry i).1 = (a.GetEntry i).1) ∧
      (∀ j : Int, 0 ≤ j → j < b.N → (V.GetEntry (a.N + j)).1 = (b.GetEntry j).1) := by
  obtain ⟨V, h1, _, hN, hR, _, hel⟩ := Concat_spec a b ha hb
  have ha0 := ha.1
  refine ⟨V, h1, hN, fun c => by rw [hR, if_pos c], fun c => by rw [hR, if_neg c],
    fun i hi0 hin => ?_, fun j hj0 hjn => ?_⟩
  · rw [hel i hi0 (by have := hb.1; omega), if_pos hin]
  · have c : ¬ (a.N + j < a.N) := by omega
    have e : a.N + j - a.N = j := by omega
    rw [hel (a.N + j) (by omega) (by omega), if_neg c, e]

/-- The witness of C16: `Concat` of the REAL `[1, 2]` and the COMPLEX `[3 + 4i]` is the
COMPLEX vector `[1 + 0i, 2 + 0i, 3 + 4i]` of length 3. -/
theorem concat_both_present_witness :
    realOneTwo.Backed ∧ complexThreeFour.Backed ∧
    ∃ V : HVector Int, Concat (some realOneTwo) (some complexThreeFour) = some V ∧
      V.N = 3 ∧ V.RealComplex = LHM_COMPLEX ∧
      (V.GetEntry 0).1 = ⟨1, 0⟩ ∧ (V.GetEntry 1).1 = ⟨2, 0⟩ ∧ (V.GetEntry 2).1 = ⟨3, 4⟩ := by
  obtain ⟨V, h1, hN, _, hC, hA, hB⟩ :=
    concat_both_present realOneTwo complexThreeFour realOneTwo_backed complexThreeFour_backed
  refine ⟨realOneTwo_backed, complexThreeFour_backed, V, h1, hN, hC (by decide), ?_, ?_, ?_⟩
  · rw [hA 0 (by decide) (by decide)]; decide
  · rw [hA 1 (by decide) (by decide)]; decide
  · rw [show (2 : Int) = realOneTwo.N + 0 from rfl, hB 0 (by decide) (by decide)]; decide

/-- C17. `Concat(a, b)` is null if and only if `a` and `b` are both null; if exactly one
argument is null, the result is a vector that owns its storage and has the length, the kind
and the elements of the other argument `V`. -/
theorem concat_absent (V : HVector D) (hV : V.Backed) (a b : Option (HVector D)) :
    (Concat a b = none ↔ a = none ∧ b = none) ∧
    (∃ C : HVector D, Concat (some V) none = some C ∧ C.ownsV = true ∧ C.N = V.N ∧
      C.RealComplex = V.RealComplex ∧
      ∀ i : Int, 0 ≤ i → i < V.N → (C.GetEntry i).1 = (V.GetEntry i).1) ∧
    (∃ C : HVector D, Concat none (some V) = some C ∧ C.ownsV = true ∧ C.N = V.N ∧
      C.RealComplex = V.RealComplex ∧
      ∀ i : Int, 0 ≤ i → i < V.N → (C.GetEntry i).1 = (V.GetEntry i).1) := by
  obtain ⟨_, _, hN, hR, hO, hel⟩ := mk_copy_spec V hV
  refine ⟨?_, ⟨mk_copy V, rfl, hO, hN, hR, hel⟩, ⟨mk_copy V, rfl, hO, hN, hR, hel⟩⟩
  cases a <;> cases b <;> simp [Concat]

/-- The witness of C17: `Concat` of the aliasing REAL `[5, 7]` and a null pointer. -/
theorem concat_absent_witness :
    aliasedReal.Backed ∧ aliasedReal.ownsV = false ∧
    (Concat (none : Option (HVector Int)) none = none) ∧
    ∃ C : HVector Int, Concat (some aliasedReal) none = some C ∧ C.ownsV = true ∧
      C.N = aliasedReal.N ∧ C.RealComplex = aliasedReal.RealComplex ∧
      ∀ i : Int, 0 ≤ i → i < aliasedReal.N → (C.GetEntry i).1 = (aliasedReal.GetEntry i).1 :=
  ⟨aliasedReal_backed, rfl,
    (concat_absent aliasedReal aliasedReal_backed none none).1.mpr ⟨rfl, rfl⟩,
    (concat_absent aliasedReal aliasedReal_backed none none).2.1⟩

theorem Shows_self (V : HVector D) (hV : V.Backed) :
    V.Shows V.N V.RealComplex (fun i => (V.GetEntry i).1) :=
  ⟨hV, rfl, rfl, fun _ _ _ => rfl⟩

theorem Shows_copy (V : HVector D) (n k : Int) (e : Int → cdouble D) (h : V.Shows n k e) :
    (mk_copy V).Shows n k e := by
  obtain ⟨hB, hN, hR, hel⟩ := h
  obtain ⟨cB, _, cN, cR, _, cel⟩ := mk_copy_spec V hB
  exact ⟨cB, by rw [cN, hN], by rw [cR, hR],
    fun i hi0 hin => by rw [cel i hi0 (by rw [hN]; exact hin), hel i hi0 hin]⟩

theorem Shows_concat (a b : HVector D) (n1 k1 n2 k2 : Int) (e1 e2 : Int → cdouble D)
    (ha : a.Shows n1 k1 e1) (hb : b.Shows n2 k2 e2) :
    ∃ V : HVector D, Concat (some a) (some b) = some V ∧
      V.Shows (n1 + n2) (if k1 = LHM_REAL ∧ k2 = LHM_REAL then LHM_REAL else LHM_COMPLEX)
        (fun i => if i < n1 then e1 i else e2 (i - n1)) := by
  obtain ⟨aB, aN, aR, ael⟩ := ha
  obtain ⟨bB, bN, bR, bel⟩ := hb
  obtain ⟨V, h1, hB, hN, hR, _, hel⟩ := Concat_spec a b aB bB
  have a0 := aB.1
  have b0 := bB.1
  refine ⟨V, h1, hB, by rw [hN, aN, bN], by rw [hR, aR, bR], fun i hi0 hin => ?_⟩
  rw [hel i hi0 (by rw [aN, bN]; exact hin), aN]
  by_cases c : i < n1
  · simp only [if_pos c]
    exact ael i hi0 c
  · simp only [if_neg c]
    exact bel (i - n1) (by omega) (by omega)

theorem SameContent_of_Shows (V W : HVector D) (n k m l : Int) (e f : Int → cdouble D)
    (hV : V.Shows n k e) (hW : W.Shows m l f) (hn : n = m) (hk : k = l)
    (hef : ∀ i : Int, 0 ≤ i → i < n → e i = f i) :
    SameContent (some V) (some W) := by
  obtain ⟨_, vN, vR, vel⟩ := hV
  obtain ⟨_, wN, wR, wel⟩ := hW
  refine ⟨by rw [vN, wN, hn], by rw [vR, wR, hk], fun i hi0 hin => ?_⟩
  rw [vN] at hin
  rw [vel i hi0 hin, wel i hi0 (by rw [← hn]; exact hin), hef i hi0 hin]

theorem kind_assoc (k1 k2 k3 : Int) :
    (if (if k1 = LHM_REAL ∧ k2 = LHM_REAL then LHM_REAL else LHM_COMPLEX) = LHM_REAL ∧
        k3 = LHM_REAL then LHM_REAL else LHM_COMPLEX) =
    (if k1 = LHM_REAL ∧
        (if k2 = LHM_REAL ∧ k3 = LHM_REAL then LHM_REAL else LHM_COMPLEX) = LHM_REAL
      then LHM_REAL else LHM_COMPLEX) := by
  by_cases h1 : k1 = LHM_REAL <;> by_cases h2 : k2 = LHM_REAL <;>
    by_cases h3 : k3 = LHM_REAL <;> simp [h1, h2, h3, LHM_COMPLEX_ne_REAL]

/-- C20. `Concat` is associative up to observable content: for all vectors `a`, `b`, `c`,
each null or with its active buffer holding its elements, `Concat(Concat(a, b), c)` and
`Concat(a, Concat(b, c))` are both null, or both vectors of the same length and kind with the
same `GetEntry(i)` at every index in range. -/
theorem concat_assoc (a b c : Option (HVector D)) (ha : ∀ V, a = some V → V.Backed)
    (hb : ∀ V, b = some V → V.Backed) (hc : ∀ V, c = some V → V.Backed) :
    SameContent (Concat (Concat a b) c) (Concat a (Concat b c)) := by
  rcases a with _ | a <;> rcases b with _ | b <;> rcases c with _ | c
  · exact trivial
  · have sc := Shows_self c (hc c rfl)
    exact SameContent_of_Shows _ _ _ _ _ _ _ _ (Shows_copy _ _ _ _ sc)
      (Shows_copy _ _ _ _ (Shows_copy _ _ _ _ sc)) rfl rfl (fun _ _ _ => rfl)
  · have sb := Shows_self b (hb b rfl)
    exact SameContent_of_Shows _ _ _ _ _ _ _ _ (Shows_copy _ _ _ _ (Shows_copy _ _ _ _ sb))
      (Shows_copy _ _ _ _ (Shows_copy _ _ _ _ sb)) rfl rfl (fun _ _ _ => rfl)
  · have sb := Shows_self b (hb b rfl)
    have sc := Shows_self c (hc c rfl)
    obtain ⟨V, hV, sV⟩ := Shows_concat _ _ _ _ _ _ _ _ (Shows_copy _ _ _ _ sb) sc
    obtain ⟨W, hW, sW⟩ := Shows_concat _ _ _ _ _ _ _ _ sb sc
    have e1 : Concat (none : Option (HVector D)) (some b) = some (mk_copy b) := rfl
    have e2 : Concat (none : Option (HVector D)) (some W) = some (mk_copy W) := rfl
    rw [e1, hV, hW, e2]
    exact SameContent_of_Shows _ _ _ _ _ _ _ _ sV (Shows_copy _ _ _ _ sW) rfl rfl
      (fun _ _ _ => rfl)
  · have sa := Shows_self a (ha a rfl)
    exact SameContent_of_Shows _ _ _ _ _ _ _ _ (Shows_copy _ _ _ _ (Shows_copy _ _ _ _ sa))
      (Shows_copy _ _ _ _ sa) rfl rfl (fun _ _ _ => rfl)
  · have sa := Shows_self a (ha a rfl)
    have sc := Shows_self c (hc c rfl)
    obtain ⟨V, hV, sV⟩ := Shows_concat _ _ _ _ _ _ _ _ (Shows_copy _ _ _ _ sa) sc
    obtain ⟨W, hW, sW⟩ := Shows_concat _ _ _ _ _ _ _ _ sa (Shows_copy _ _ _ _ sc)
    have e1 : Concat (some a) (none : Option (HVector D)) = some (mk_copy a) := rfl
    have e2 : Concat (none : Option (HVector D)) (some c) = some (mk_copy c) := rfl
    rw [e1, hV, e2, hW]
    exact SameContent_of_Shows _ _ _ _ _ _ _ _ sV sW rfl rfl (fun _ _ _ => rfl)
  · have sa := Shows_self a (ha a rfl)
    have sb := Shows_self b (hb b rfl)
    obtain ⟨V, hV, sV⟩ := Shows_concat _ _ _ _ _ _ _ _ sa sb
    obtain ⟨W, hW, sW⟩ := Shows_concat _ _ _ _ _ _ _ _ sa (Shows_copy _ _ _ _ sb)
    have e1 : Concat (some V) (none : Option (HVector D)) = some (mk_copy V) := rfl
    have e2 : Concat (some b) (none : Option (HVector D)) = some (mk_copy b) := rfl
    rw [hV, e1, e2, hW]
    exact SameContent_of_Shows _ _ _ _ _ _ _ _ (Shows_copy _ _ _ _ sV) sW rfl rfl
      (fun _ _ _ => rfl)
  · have sa := Shows_self a (ha a rfl)
    have sb := Shows_self b (hb b rfl)
    have sc := Shows_self c (hc c rfl)
    have a0 := (ha a rfl).1
    have b0 := (hb b rfl).1
    obtain ⟨V, hV, sV⟩ := Shows_concat _ _ _ _ _ _ _ _ sa sb
    obtain ⟨W, hW, sW⟩ := Shows_concat _ _ _ _ _ _ _ _ sb sc
    obtain ⟨L, hL, sL⟩ := Shows_concat _ _ _ _ _ _ _ _ sV sc
    obtain ⟨R, hR, sR⟩ := Shows_concat _ _ _ _ _ _ _ _ sa sW
    rw [hV, hL, hW, hR]
    refine SameContent_of_Shows _ _ _ _ _ _ _ _ sL sR (add_assoc _ _ _) (kind_assoc _ _ _)
      (fun i hi0 _ => ?_)
    by_cases c1 : i < a.N
    · have c2 : i < a.N + b.N := by omega
      simp only [if_pos c1, if_pos c2]
    · by_cases c2 : i < a.N + b.N
      · have c3 : i - a.N < b.N := by omega
        simp only [if_neg c1, if_pos c2, if_pos c3]
      · have c3 : ¬ (i - a.N < b.N) := by omega
        have e : i - (a.N + b.N) = i - a.N - b.N := by omega
        simp only [if_neg c1, if_neg c2, if_neg c3, e]

/-- The witness of C20: `a` the REAL `[1, 2]`, `b` null, `c` the COMPLEX `[1 + 2i, 3 + 4i]`. -/
theorem concat_assoc_witness :
    SameContent (Concat (Concat (some realOneTwo) none) (some sampleComplex))
      (Concat (some realOneTwo) (Concat none (some sampleComplex))) :=
  concat_assoc (some realOneTwo) none (some sampleComplex)
    (fun V h => by cases h; exact realOneTwo_backed)
    (fun V h => by cases h)
    (fun V h => by cases h; exact sampleComplex_backed)

end Concatenation

/-! ## Ownership and the representation invariant -/

section Ownership

open HVector

theorem castCdouble_getD {D : Type} [CommRing D] (i : Nat) :
    ∀ buf : List D, 2 * i + 1 < buf.length →
      (castCdouble buf).getD i 0 = ⟨buf.getD (2 * i) 0, buf.getD (2 * i + 1) 0⟩ := by
  induction i with
  | zero =>
    intro buf h
    match buf, h with
    | a :: b :: t, _ => simp [castCdouble]
  | succ i ih =>
    intro buf h
    match buf, h with
    | a :: b :: t, h =>
      have h2 : 2 * i + 1 < t.length := by
        simp only [List.length_cons] at h; omega
      have e1 : 2 * (i + 1) = (2 * i) + 1 + 1 := by ring
      have e2 : 2 * (i + 1) + 1 = (2 * i + 1) + 1 + 1 := by ring
      rw [e1] at *
      simp only [castCdouble, List.getD_cons_succ]
      rw [ih t h2]

theorem castCdouble_length {D : Type} (n : Nat) :
    ∀ buf : List D, buf.length = 2 * n → (castCdouble buf).length = n := by
  induction n with
  | zero =>
    intro buf h
    have : buf = [] := List.length_eq_zero.mp (by omega)
    subst this
    rfl
  | succ n ih =>
    intro buf h
    match buf, h with
    | a :: b :: t, h =>
      have h2 : t.length = 2 * n := by
        simp only [List.length_cons] at h; omega
      simp only [castCdouble, List.length_cons, ih t h2]

variable {D : Type} [CommRing D]

/-- C19. For every length, kind and optional external buffer, `ownsV` of the constructed
vector is true if and only if no buffer was supplied.  With a buffer supplied the vector
holds that buffer, as it is: `GetEntry(i)` returns the `i`-th scalar of it (element `i` of
the doubles for REAL, the pair of doubles `2i`, `2i + 1` for another kind) and the
destructor passes nothing to `free`; without one, the destructor frees one buffer. -/
theorem ownership_flag (n k : Int) (data : Option (List D)) :
    ((InitHVector n k data).ownsV = true ↔ data = none) ∧
    (∀ buf : List D, data = some buf →
      (InitHVector n k data).Destroy = [] ∧
      (k = LHM_REAL → (InitHVector n k data).DV = some buf ∧
        ∀ i : Int, 0 ≤ i → i < n → n.toNat ≤ buf.length →
          ((InitHVector n k data).GetEntry i).1 = cdouble.ofDouble (buf.getD i.toNat 0)) ∧
      (¬ k = LHM_REAL → (InitHVector n k data).ZV = some (castCdouble buf) ∧
        ∀ i : Int, 0 ≤ i → i < n → 2 * n.toNat ≤ buf.length →
          ((InitHVector n k data).GetEntry i).1 =
            ⟨buf.getD (2 * i.toNat) 0, buf.getD (2 * i.toNat + 1) 0⟩)) ∧
    (data = none → ((InitHVector n k data).Destroy).length = 1) := by
  refine ⟨?_, fun buf hd => ?_, fun hd => ?_⟩
  · cases data <;> by_cases hk : k = LHM_REAL <;> simp [InitHVector, hk]
  · subst hd
    refine ⟨?_, fun hk => ?_, fun hk => ?_⟩
    · by_cases hk : k = LHM_REAL <;> simp [InitHVector, hk, Destroy]
    · refine ⟨by simp [InitHVector, hk], fun i _ _ _ => ?_⟩
      simp [InitHVector, hk, GetEntry, load]
    · refine ⟨by simp [InitHVector, hk], fun i hi0 hin hlen => ?_⟩
      have h : 2 * i.toNat + 1 < buf.length := by omega
      simp only [InitHVector, hk, if_false, GetEntry, load]
      exact castCdouble_getD i.toNat buf h
  · subst hd
    by_cases hk : k = LHM_REAL <;> simp [InitHVector, hk, Destroy]

/-- The witness of C19: the REAL `[5, 7]` and the COMPLEX `[1 + 2i, 3 + 4i]`, each over an
external buffer, and a zero-filled vector that owns its buffer. -/
theorem ownership_flag_witness :
    aliasedReal.ownsV = false ∧ aliasedReal.Destroy = [] ∧ aliasedReal.DV = some [5, 7] ∧
    (aliasedReal.GetEntry 1).1 = ⟨7, 0⟩ ∧ (sampleComplex.GetEntry 1).1 = ⟨3, 4⟩ ∧
    ((InitHVector 3 LHM_REAL (none : Option (List Int))).ownsV = true) :=
  ⟨by decide,
    ((ownership_flag 2 LHM_REAL (some [5, 7])).2.1 [5, 7] rfl).1,
    (((ownership_flag 2 LHM_REAL (some [5, 7])).2.1 [5, 7] rfl).2.1 rfl).1,
    (((ownership_flag 2 LHM_REAL (some [5, 7])).2.1 [5, 7] rfl).2.1 rfl).2 1 (by decide)
      (by decide) (by decide),
    (((ownership_flag 2 LHM_COMPLEX (some [1, 2, 3, 4])).2.1 [1, 2, 3, 4] rfl).2.2
      LHM_COMPLEX_ne_REAL).2 1 (by decide) (by decide) (by decide),
    (ownership_flag 3 LHM_REAL (none : Option (List Int))).1.mpr rfl⟩

end Ownership

section Invariant

open HVector

/-- An operation that stores some value at position `n` of the active buffer. -/
theorem Preserved_store {D : Type} (V : HVector D) (hV : V.Inv) (n : Int) (x : D) (z : cdouble D) :
    Preserved V (if V.RealComplex = LHM_REAL then { V with DV := store V.DV n x }
      else { V with ZV := store V.ZV n z }) := by
  by_cases hr : V.RealComplex = LHM_REAL
  · obtain ⟨b, hb, hl, hz⟩ := Inv_real_buffer hV hr
    rw [if_pos hr, hb]
    exact ⟨Inv_of_real V _ hr hz (by rw [List.length_set]; exact hl), rfl, rfl, rfl⟩
  · obtain ⟨b, hb, hl, hd⟩ := Inv_cplx_buffer hV hr
    rw [if_neg hr, hb]
    exact ⟨Inv_of_cplx V _ hr hd (by rw [List.length_set]; exact hl), rfl, rfl, rfl⟩

theorem Preserved_Scale {D : Type} [CommRing D] (V : HVector D) (hV : V.Inv) (a : cdouble D) :
    Preserved V (V.Scale a) := by
  by_cases hr : V.RealComplex = LHM_REAL
  · obtain ⟨b, hb, hl, hz⟩ := Inv_real_buffer hV hr
    obtain ⟨b2, r, hb2, hs, hrl, _⟩ := Scale_real V (Inv_backed hV) hr a
    have e : b2 = b := by rw [hb] at hb2; exact (Option.some.inj hb2).symm
    subst e
    rw [hs]
    exact ⟨Inv_of_real V _ hr hz (by rw [hrl]; exact hl), rfl, rfl, rfl⟩
  · obtain ⟨b, hb, hl, hd⟩ := Inv_cplx_buffer hV hr
    obtain ⟨b2, r, hb2, hs, hrl, _⟩ := Scale_cplx V (Inv_backed hV) hr a
    have e : b2 = b := by rw [hb] at hb2; exact (Option.some.inj hb2).symm
    subst e
    rw [hs]
    exact ⟨Inv_of_cplx V _ hr hd (by rw [hrl]; exact hl), rfl, rfl, rfl⟩

theorem Preserved_Zero {D : Type} [CommRing D] (V : HVector D) (hV : V.Inv) : Preserved V V.Zero := by
  by_cases hr : V.RealComplex = LHM_REAL
  · obtain ⟨b, hb, hl, hz⟩ := Inv_real_buffer hV hr
    rw [HVector.Zero, if_pos hr, hb]
    refine ⟨Inv_of_real V _ hr hz ?_, rfl, rfl, rfl⟩
    rw [List.length_append, List.length_replicate, List.length_drop]
    omega
  · obtain ⟨b, hb, hl, hd⟩ := Inv_cplx_buffer hV hr
    rw [HVector.Zero, if_neg hr, hb]
    refine ⟨Inv_of_cplx V _ hr hd ?_, rfl, rfl, rfl⟩
    rw [List.length_append, List.length_replicate, List.length_drop]
    omega

theorem Preserved_Copy {D : Type} (T S : HVector D) (hT : T.Inv) (hS : S.Inv) :
    ∃ (T1 : HVector D) (w : List String), T.Copy S = Except.ok (T1, w) ∧ Preserved T T1 := by
  by_cases hm : S.N ≠ T.N ∨ S.RealComplex ≠ T.RealComplex
  · exact ⟨T, _, by rw [Copy, if_pos hm], hT, rfl, rfl, rfl⟩
  · have hN : S.N = T.N := by
      by_contra c; exact hm (Or.inl c)
    have hK : S.RealComplex = T.RealComplex := by
      by_contra c; exact hm (Or.inr c)
    by_cases hr : T.RealComplex = LHM_REAL
    · obtain ⟨b, hb, hl, hz⟩ := Inv_real_buffer hT hr
      obtain ⟨c, hc, hcl, _⟩ := Inv_real_buffer hS (hK.trans hr)
      refine ⟨_, _, by rw [Copy, if_neg hm, if_pos hr], ?_⟩
      rw [hb, hc]
      refine ⟨Inv_of_real T _ hr hz ?_, rfl, rfl, rfl⟩
      rw [List.length_append, List.length_take, List.length_drop]
      omega
    · obtain ⟨b, hb, hl, hd⟩ := Inv_cplx_buffer hT hr
      obtain ⟨c, hc, hcl, _⟩ := Inv_cplx_buffer hS (fun q => hr (hK.symm.trans q))
      refine ⟨_, _, by rw [Copy, if_neg hm, if_neg hr], ?_⟩
      rw [hb, hc]
      refine ⟨Inv_of_cplx T _ hr hd ?_, rfl, rfl, rfl⟩
      rw [List.length_append, List.length_take, List.length_drop]
      omega

theorem InitHVector_Inv {D : Type} [CommRing D] (n k : Int) (hn : 0 ≤ n) :
    (InitHVector n k (none : Option (List D))).Inv ∧
    ∀ buf : List D, (buf.length : Int) = (if k = LHM_REAL then n else 2 * n) →
      (InitHVector n k (some buf)).Inv := by
  have hN : ((n.toNat : Nat) : Int) = n := Int.toNat_of_nonneg hn
  by_cases hk : k = LHM_REAL
  · refine ⟨?_, fun buf hb => ?_⟩
    · simp [InitHVector, HVector.Inv, hk, mallocEC, hN]
    · rw [if_pos hk] at hb
      simp [InitHVector, HVector.Inv, hk, hb]
  · refine ⟨?_, fun buf hb => ?_⟩
    · simp [InitHVector, HVector.Inv, hk, mallocEC, hN]
    · rw [if_neg hk] at hb
      have hl : (castCdouble buf).length = n.toNat := castCdouble_length n.toNat buf (by omega)
      simp [InitHVector, HVector.Inv, hk, hl, hN]

/-- C18. Representation invariant: a vector built by `InitHVector` (for `n ≥ 0`, without a
buffer or over an external buffer of exactly `n` scalars of its kind) or by the copy
constructor has exactly one buffer present, the one its kind selects, holding exactly `N`
elements; and `SetEntry`, `AddEntry` (at an index in range), `Scale`, `Zero` and `Copy` leave
a vector with this invariant and with the length, the kind and the ownership flag it had. -/
theorem representation_invariant {D : Type} [CommRing D] (V S : HVector D) (hV : V.Inv)
    (hS : S.Inv) (n k : Int) (hn : 0 ≤ n) (i : Int) (_hi0 : 0 ≤ i) (_hin : i < V.N)
    (z : cdouble D) (x : D) :
    (InitHVector n k (none : Option (List D))).Inv ∧
    (∀ buf : List D, (buf.length : Int) = (if k = LHM_REAL then n else 2 * n) →
      (InitHVector n k (some buf)).Inv) ∧
    (mk_copy V).Inv ∧
    Preserved V (V.SetEntry i z) ∧ Preserved V (V.SetEntryD i x) ∧
    Preserved V (V.AddEntry i z) ∧ Preserved V (V.AddEntryD i x) ∧
    Preserved V (V.Scale z) ∧ Preserved V (V.ScaleD x) ∧ Preserved V V.Zero ∧
    ∃ (V1 : HVector D) (w : List String), V.Copy S = Except.ok (V1, w) ∧ Preserved V V1 :=
  ⟨(InitHVector_Inv n k hn).1, (InitHVector_Inv n k hn).2,
    (mk_copy_spec V (Inv_backed hV)).2.1,
    Preserved_store V hV i _ _, Preserved_store V hV i _ _,
    Preserved_store V hV i _ _, Preserved_store V hV i _ _,
    Preserved_Scale V hV z, Preserved_Scale V hV _, Preserved_Zero V hV,
    Preserved_Copy V S hV hS⟩

theorem realOneTwo_Inv : realOneTwo.Inv := by
  simp [realOneTwo, HVector.Inv, InitHVector, SetEntryD, store, mallocEC]

theorem aliasedReal_Inv : aliasedReal.Inv := by
  simp [aliasedReal, HVector.Inv, InitHVector]

/-- The witness of C18: the owning REAL `[1, 2]` under each operation, the source of `Copy`
being the REAL `[5, 7]`. -/
theorem representation_invariant_witness :
    realOneTwo.Inv ∧ aliasedReal.Inv ∧
    (mk_copy realOneTwo).Inv ∧
    Preserved realOneTwo (realOneTwo.SetEntry 1 ⟨8, 9⟩) ∧
    Preserved realOneTwo (realOneTwo.AddEntryD 1 4) ∧
    Preserved realOneTwo (realOneTwo.Scale ⟨8, 9⟩) ∧
    Preserved realOneTwo realOneTwo.Zero ∧
    ∃ (V1 : HVector Int) (w : List String),
      realOneTwo.Copy aliasedReal = Except.ok (V1, w) ∧ Preserved realOneTwo V1 :=
  ⟨realOneTwo_Inv, aliasedReal_Inv,
    (representation_invariant realOneTwo aliasedReal realOneTwo_Inv aliasedReal_Inv 3 LHM_REAL
      (by decide) 1 (by decide) (by decide) ⟨8, 9⟩ 4).2.2.1,
    (representation_invariant realOneTwo aliasedReal realOneTwo_Inv aliasedReal_Inv 3 LHM_REAL
      (by decide) 1 (by decide) (by decide) ⟨8, 9⟩ 4).2.2.2.1,
    (representation_invariant realOneTwo aliasedReal realOneTwo_Inv aliasedReal_Inv 3 LHM_REAL
      (by decide) 1 (by decide) (by decide) ⟨8, 9⟩ 4).2.2.2.2.2.2.1,
    (representation_invariant realOneTwo aliasedReal realOneTwo_Inv aliasedReal_Inv 3 LHM_REAL
      (by decide) 1 (by decide) (by decide) ⟨8, 9⟩ 4).2.2.2.2.2.2.2.1,
    (representation_invariant realOneTwo aliasedReal realOneTwo_Inv aliasedReal_Inv 3 LHM_REAL
      (by decide) 1 (by decide) (by decide) ⟨8, 9⟩ 4).2.2.2.2.2.2.2.2.2.1,
    (representation_invariant realOneTwo aliasedReal realOneTwo_Inv aliasedReal_Inv 3 LHM_REAL
      (by decide) 1 (by decide) (by decide) ⟨8, 9⟩ 4).2.2.2.2.2.2.2.2.2.2⟩

end Invariant

end HMat
